import Mathlib

/-!
Verification of the release-management scheduling engine.

The definitions below are a shallow embedding of the server code:

* `src/server/schedulerService.ts` — `checkScheduledSteps`, `checkDependentSteps`,
  `triggerStep`, `checkSimultaneousSteps`, `checkReleaseCompletion`;
* `src/server/routes.ts` — `updateReleasePlanStatus`, the manual-trigger route
  `POST /api/steps/:id/trigger`, and the status branch of `PATCH /api/steps/:id`;
* `src/server/emailService.ts` — `checkAndNotifyReleaseCompletion`;
* `src/server/storage.ts` — the persistence queries and `updateStep`.

Conventions of the embedding:

* ids and timestamps are `Nat`; JavaScript `Date` comparison becomes `≤` on `Nat`;
* the database is an explicit `DB` value threaded through every operation;
* asynchronous awaited calls of the source run sequentially on the single-threaded
  event loop, so each handler is a sequential state transformer on `DB`;
* outbound notification requests and release-plan status writes are recorded in
  append-only logs inside `DB` (the e-mail gateway and the broadcaster are external
  collaborators; a log entry stands for one request handed to them — address
  resolution via the users table does not change `DB` and is not modelled);
* the mutual recursion `triggerStep` / `checkSimultaneousSteps` of the source is
  given a fuel parameter; every claim is stated with enough fuel.
-/

/-- Step lifecycle status (column `release_steps.status`). -/
inductive StepStatus
  | not_started
  | started
  | in_progress
  | completed
  | failed
  deriving DecidableEq, Repr

/-- Scheduling mode of a step (column `release_steps.scheduling_type`). -/
inductive SchedulingType
  | manual
  | fixed_time
  | after_step
  | simultaneous
  deriving DecidableEq, Repr

/-- Release-plan lifecycle status (column `release_plans.status`). -/
inductive PlanStatus
  | planning
  | active
  | completed
  | cancelled
  deriving DecidableEq, Repr

/-- Author of a step-history row: the reserved "system" sentinel or a user id. -/
inductive Actor
  | system
  | user (id : Nat)
  deriving DecidableEq, Repr

/-- Row of the `release_steps` table (the columns the scheduler reads or writes). -/
structure ReleaseStep where
  id : Nat
  releasePlanId : Nat
  status : StepStatus
  schedulingType : SchedulingType
  scheduledTime : Option Nat
  dependsOnStepId : Option Nat
  simultaneousWithStepId : Option Nat
  teamLeadId : Option Nat
  primaryPocId : Option Nat
  backupPocId : Option Nat
  startedAt : Option Nat
  completedAt : Option Nat
  deriving DecidableEq, Repr

/-- Row of the `release_plans` table (the columns the engine reads or writes). -/
structure ReleasePlan where
  id : Nat
  status : PlanStatus
  createdAt : Nat
  deriving DecidableEq, Repr

/-- Row of the `step_history` audit table. -/
structure StepHistoryRow where
  stepId : Nat
  previousStatus : StepStatus
  newStatus : StepStatus
  changedBy : Actor
  deriving DecidableEq, Repr

/-- Persistent state plus append-only logs of outbound effect requests. -/
structure DB where
  steps : List ReleaseStep
  plans : List ReleasePlan
  history : List StepHistoryRow
  /-- Log of `updateReleasePlan(id, {status})` writes, in order. -/
  planWrites : List (Nat × PlanStatus)
  /-- Log of `sendReleaseCompletionNotification` requests (plan id). -/
  completionReqs : List Nat
  /-- Log of `sendStepTriggerNotification` requests (step id). -/
  stepTriggerReqs : List Nat
  deriving DecidableEq, Repr

/-- `storage.getStep`: select a step by primary key. -/
def getStep (db : DB) (stepId : Nat) : Option ReleaseStep :=
  db.steps.find? (fun s => decide (s.id = stepId))

/-- `storage.getStepsByStatus`: select all steps with the given status. -/
def getStepsByStatus (db : DB) (st : StepStatus) : List ReleaseStep :=
  db.steps.filter (fun s => decide (s.status = st))

/-- `storage.getStepsByReleasePlan`: select all steps of one plan. -/
def getStepsByReleasePlan (db : DB) (planId : Nat) : List ReleaseStep :=
  db.steps.filter (fun s => decide (s.releasePlanId = planId))

/-- `storage.getStepsForScheduling`: steps with `schedulingType = fixed_time` and
`status = not_started`.  The query does not test `scheduledTime`. -/
def getStepsForScheduling (db : DB) : List ReleaseStep :=
  db.steps.filter
    (fun s => decide (s.schedulingType = SchedulingType.fixed_time ∧
                      s.status = StepStatus.not_started))

/-- `storage.getReleasePlan`: select a plan by primary key. -/
def getReleasePlan (db : DB) (planId : Nat) : Option ReleasePlan :=
  db.plans.find? (fun p => decide (p.id = planId))

/-- Effect of `storage.updateStep(id, { status: 'started', startedAt: now })` on the
steps table: both supplied values survive the empty-string cleaning, so the row with
the given id gets `status = started` and `startedAt = now`; other rows are untouched. -/
def writeStepStarted (steps : List ReleaseStep) (stepId now : Nat) : List ReleaseStep :=
  steps.map (fun s =>
    if s.id = stepId then { s with status := StepStatus.started, startedAt := some now } else s)

/-- `storage.addStepHistory`: append one audit row. -/
def addStepHistory (db : DB) (row : StepHistoryRow) : DB :=
  { db with history := db.history ++ [row] }

/-- `storage.updateReleasePlan(id, {status})`: write the plan status and record the
write in the log. -/
def writePlanStatus (db : DB) (planId : Nat) (st : PlanStatus) : DB :=
  { db with
    plans := db.plans.map (fun p => if p.id = planId then { p with status := st } else p)
    planWrites := db.planWrites ++ [(planId, st)] }

/-- Snapshot taken by `schedulerService.checkSimultaneousSteps`: the source fetches
`getStepsByStatus('not_started')` and keeps, inside its loop, the steps with
`schedulingType = simultaneous` whose `simultaneousWithStepId` is the freshly
triggered id.  Both source filters are combined into one pass here. -/
def simultaneousSnapshot (db : DB) (trigId : Nat) : List ReleaseStep :=
  db.steps.filter
    (fun s => decide (s.status = StepStatus.not_started ∧
                      s.schedulingType = SchedulingType.simultaneous ∧
                      s.simultaneousWithStepId = some trigId))

/-- Direct effects of `schedulerService.triggerStep` before its cascade: the
`status`/`startedAt` write, the "system" history row, and the trigger-notification
request when a primary POC is assigned (the source performs these three awaited
calls in this order; they touch disjoint parts of the state, so they are one
record update here). -/
def trigWrite (db : DB) (step : ReleaseStep) (now : Nat) : DB :=
  { db with
    steps := writeStepStarted db.steps step.id now
    history := db.history ++
      [{ stepId := step.id, previousStatus := StepStatus.not_started,
         newStatus := StepStatus.started, changedBy := Actor.system }]
    stepTriggerReqs := db.stepTriggerReqs ++
      (if step.primaryPocId.isSome then [step.id] else []) }

/-- `schedulerService.triggerStep`: perform the direct `trigWrite` effects, then run
the simultaneous-step cascade on the resulting state (the body of
`checkSimultaneousSteps`, inlined to make the recursion structural in `fuel`).  The
source performs no re-check of the current persisted status of its argument before
writing. -/
def triggerStep : Nat → DB → ReleaseStep → Nat → DB
  | 0, db, _, _ => db
  | Nat.succ fuel, db, step, now =>
    let db3 : DB := trigWrite db step now
    (simultaneousSnapshot db3 step.id).foldl (fun d s => triggerStep fuel d s now) db3

/-- `schedulerService.checkSimultaneousSteps`, as its own function. -/
def checkSimultaneousSteps (fuel : Nat) (db : DB) (trigId now : Nat) : DB :=
  (simultaneousSnapshot db trigId).foldl (fun d s => triggerStep fuel d s now) db

/-- Per-step guard of `checkScheduledSteps`:
`step.scheduledTime && new Date(step.scheduledTime) <= now` (a null `scheduledTime`
is falsy, so such steps are skipped without error). -/
def schedEligible (s : ReleaseStep) (now : Nat) : Bool :=
  match s.scheduledTime with
  | some t => decide (t ≤ now)
  | none => false

/-- Loop body of `checkScheduledSteps` over the snapshot returned by
`getStepsForScheduling`. -/
def schedLoop (fuel now : Nat) : DB → List ReleaseStep → DB
  | db, [] => db
  | db, s :: rest =>
    schedLoop fuel now (if schedEligible s now then triggerStep fuel db s now else db) rest

/-- `schedulerService.checkScheduledSteps`: fixed-time evaluation of one poll tick. -/
def checkScheduledSteps (fuel : Nat) (db : DB) (now : Nat) : DB :=
  schedLoop fuel now db (getStepsForScheduling db)

/-- Guard of the `checkDependentSteps` loop: an `after_step` step is eligible when its
`dependsOnStepId` step currently has status `completed`; a `simultaneous` step when
its `simultaneousWithStepId` step currently has status `started`.  The dependency is
looked up in the current state via `storage.getStep`. -/
def depEligible (db : DB) (s : ReleaseStep) : Bool :=
  if s.schedulingType = SchedulingType.after_step then
    match s.dependsOnStepId with
    | some d =>
      match getStep db d with
      | some dep => decide (dep.status = StepStatus.completed)
      | none => false
    | none => false
  else if s.schedulingType = SchedulingType.simultaneous then
    match s.simultaneousWithStepId with
    | some m =>
      match getStep db m with
      | some partner => decide (partner.status = StepStatus.started)
      | none => false
    | none => false
  else false

/-- Loop body of `checkDependentSteps` over the `not_started` snapshot; the guard is
evaluated against the state current at each iteration. -/
def depLoop (fuel now : Nat) : DB → List ReleaseStep → DB
  | db, [] => db
  | db, s :: rest =>
    depLoop fuel now (if depEligible db s then triggerStep fuel db s now else db) rest

/-- `schedulerService.checkDependentSteps`: dependency evaluation of one poll tick. -/
def checkDependentSteps (fuel : Nat) (db : DB) (now : Nat) : DB :=
  depLoop fuel now db (getStepsByStatus db StepStatus.not_started)

/-- One execution of the cron callback: `checkScheduledSteps` then
`checkDependentSteps`. -/
def schedulerTick (fuel : Nat) (db : DB) (now : Nat) : DB :=
  checkDependentSteps fuel (checkScheduledSteps fuel db now) now

/-- Any number of poll ticks, one per element of `times` (the clock value of each
tick). -/
def runTicks (fuel : Nat) (db : DB) (times : List Nat) : DB :=
  times.foldl (fun d t => schedulerTick fuel d t) db

/-- Helper `updateReleasePlanStatus` of `src/server/routes.ts`: derive the plan status
from its steps and write it; a plan with zero steps is returned without a write. -/
def updateReleasePlanStatus (db : DB) (planId : Nat) : DB :=
  let steps := getStepsByReleasePlan db planId
  if steps.isEmpty then db
  else
    let hasStarted := steps.any (fun s =>
      decide (s.status = StepStatus.started ∨ s.status = StepStatus.in_progress ∨
              s.status = StepStatus.completed))
    let allCompleted := steps.all (fun s => decide (s.status = StepStatus.completed))
    let newStatus :=
      if allCompleted then PlanStatus.completed
      else if hasStarted then PlanStatus.active
      else PlanStatus.planning
    writePlanStatus db planId newStatus

/-- `schedulerService.checkReleaseCompletion`: when the plan's step set is non-empty
and every step is completed, write `status = completed` to the plan and request the
completion notification.  The current plan status is not consulted. -/
def checkReleaseCompletion (db : DB) (planId : Nat) : DB :=
  let steps := getStepsByReleasePlan db planId
  let allCompleted := steps.all (fun s => decide (s.status = StepStatus.completed))
  if allCompleted ∧ steps.length > 0 then
    let db1 := writePlanStatus db planId PlanStatus.completed
    { db1 with completionReqs := db1.completionReqs ++ [planId] }
  else db

/-- `emailService.checkAndNotifyReleaseCompletion` (initialized service): if the plan
exists, has at least one step and every step is completed, request the completion
notification and then write `status = completed` to the plan.  The current plan
status is not consulted. -/
def checkAndNotifyReleaseCompletion (db : DB) (planId : Nat) : DB :=
  match getReleasePlan db planId with
  | none => db
  | some _ =>
    let steps := getStepsByReleasePlan db planId
    if steps.isEmpty then db
    else if steps.all (fun s => decide (s.status = StepStatus.completed)) then
      let db1 := { db with completionReqs := db.completionReqs ++ [planId] }
      writePlanStatus db1 planId PlanStatus.completed
    else db

/-- Direct effects of the manual-trigger route before its plan-status update: the
`status`/`startedAt` write, the history row authored by the acting user, and the
trigger-notification request when the step has a team lead or a POC assigned. -/
def manualWrite (db : DB) (stepId userId now : Nat) (step : ReleaseStep) : DB :=
  { db with
    steps := writeStepStarted db.steps stepId now
    history := db.history ++
      [{ stepId := stepId, previousStatus := StepStatus.not_started,
         newStatus := StepStatus.started, changedBy := Actor.user userId }]
    stepTriggerReqs := db.stepTriggerReqs ++
      (if step.teamLeadId.isSome ∨ step.primaryPocId.isSome ∨ step.backupPocId.isSome
       then [stepId] else []) }

/-- Route `POST /api/steps/:id/trigger` of `src/server/routes.ts`, for an
authenticated release manager (the authorization guards precede this logic and do not
touch the database).  Returns the new state and the HTTP status code.  A step whose
status is not `not_started` is rejected with 400 before any write. -/
def manualTriggerStep (db : DB) (stepId userId now : Nat) : DB × Nat :=
  match getStep db stepId with
  | none => (db, 404)
  | some step =>
    if step.status ≠ StepStatus.not_started then (db, 400)
    else
      let db3 : DB := manualWrite db stepId userId now step
      let db4 := updateReleasePlanStatus db3 step.releasePlanId
      let db5 := checkAndNotifyReleaseCompletion db4 step.releasePlanId
      (db5, 200)

/-- `storage.updateStep(id, { status })` as issued by the PATCH route: write the new
status on the row with the given id. -/
def patchStatusWrite (db : DB) (stepId : Nat) (newStatus : StepStatus) : DB :=
  { db with steps := db.steps.map (fun s =>
      if s.id = stepId then { s with status := newStatus } else s) }

/-- Timestamp backfill of the PATCH route: when the step just moved to `started`
(resp. `completed`) and has no `startedAt` (resp. `completedAt`) yet, a second
`updateStep` call fills it with the current time. -/
def patchTimestampBackfill (db : DB) (stepId : Nat) (newStatus : StepStatus)
    (current : ReleaseStep) (now : Nat) : DB :=
  if newStatus = StepStatus.started ∧ current.startedAt = none then
    { db with steps := db.steps.map (fun s =>
        if s.id = stepId then { s with startedAt := some now } else s) }
  else if newStatus = StepStatus.completed ∧ current.completedAt = none then
    { db with steps := db.steps.map (fun s =>
        if s.id = stepId then { s with completedAt := some now } else s) }
  else db

/-- Status branch of route `PATCH /api/steps/:id` for an authorized user sending a
status-only update: write the new status via `storage.updateStep`, and when it
differs from the current one, append a history row, request the status-change
notification, backfill `startedAt`/`completedAt`, recompute the plan status and run
the completion check.  (The status-change e-mail leaves `DB` unchanged in this model:
its recipients come from the users table.) -/
def patchStepStatus (db : DB) (stepId : Nat) (newStatus : StepStatus)
    (userId now : Nat) : DB × Nat :=
  match getStep db stepId with
  | none => (db, 404)
  | some current =>
    let db1 : DB := patchStatusWrite db stepId newStatus
    if newStatus = current.status then (db1, 200)
    else
      let db2 : DB := addStepHistory db1
        { stepId := stepId, previousStatus := current.status,
          newStatus := newStatus, changedBy := Actor.user userId }
      let db3 : DB := patchTimestampBackfill db2 stepId newStatus current now
      let db4 := updateReleasePlanStatus db3 current.releasePlanId
      let db5 := checkAndNotifyReleaseCompletion db4 current.releasePlanId
      (db5, 200)

/-- Accumulator step for `ORDER BY created_at DESC LIMIT 1`: keep the plan with the
strictly larger `createdAt` (the earlier one on ties). -/
def pickStep (acc : Option ReleasePlan) (p : ReleasePlan) : Option ReleasePlan :=
  match acc with
  | none => some p
  | some q => if q.createdAt < p.createdAt then some p else some q

/-- `ORDER BY created_at DESC LIMIT 1` over a list of plans: the first plan carrying
the maximal `createdAt`. -/
def pickLatest (l : List ReleasePlan) : Option ReleasePlan :=
  l.foldl pickStep none

/-- `storage.getActiveReleasePlan`: the most recently created `active` plan, else the
most recently created `planning` plan, else none. -/
def getActiveReleasePlan (plans : List ReleasePlan) : Option ReleasePlan :=
  match pickLatest (plans.filter (fun p => decide (p.status = PlanStatus.active))) with
  | some p => some p
  | none => pickLatest (plans.filter (fun p => decide (p.status = PlanStatus.planning)))

/-- Observed status of the step with a given id. -/
def statusOf (db : DB) (stepId : Nat) : Option StepStatus :=
  (getStep db stepId).map (fun s => s.status)

/-- Observed status of the plan with a given id. -/
def planStatusOf (db : DB) (planId : Nat) : Option PlanStatus :=
  (getReleasePlan db planId).map (fun p => p.status)

/-- Number of history rows recorded for one step. -/
def historyCount (db : DB) (stepId : Nat) : Nat :=
  (db.history.filter (fun h => decide (h.stepId = stepId))).length

/-- Primary-key property of the steps table: ids are pairwise distinct. -/
def uniqueIds (db : DB) : Prop :=
  (db.steps.map (fun s => s.id)).Nodup

instance (db : DB) : Decidable (uniqueIds db) := by
  unfold uniqueIds; infer_instance

/-! Concrete fixtures used by the evaluation theorems below. -/

/-- Completed step `A` (id 0). -/
def exA : ReleaseStep :=
  { id := 0, releasePlanId := 0, status := StepStatus.completed,
    schedulingType := SchedulingType.manual, scheduledTime := none,
    dependsOnStepId := none, simultaneousWithStepId := none, teamLeadId := none,
    primaryPocId := none, backupPocId := none, startedAt := none, completedAt := some 1 }

/-- Step `B` (id 1), `after_step` depending on `A`, not started. -/
def exB : ReleaseStep :=
  { id := 1, releasePlanId := 0, status := StepStatus.not_started,
    schedulingType := SchedulingType.after_step, scheduledTime := none,
    dependsOnStepId := some 0, simultaneousWithStepId := none, teamLeadId := none,
    primaryPocId := none, backupPocId := none, startedAt := none, completedAt := none }

/-- Step `C` (id 2), `simultaneous` with `B`, not started. -/
def exC : ReleaseStep :=
  { id := 2, releasePlanId := 0, status := StepStatus.not_started,
    schedulingType := SchedulingType.simultaneous, scheduledTime := none,
    dependsOnStepId := none, simultaneousWithStepId := some 1, teamLeadId := none,
    primaryPocId := none, backupPocId := none, startedAt := none, completedAt := none }

/-- Database for the chain scenario `A (completed) ← B (after_step) ← C (simultaneous)`. -/
def exDbChain : DB :=
  { steps := [exA, exB, exC], plans := [{ id := 0, status := PlanStatus.active, createdAt := 0 }],
    history := [], planWrites := [], completionReqs := [], stepTriggerReqs := [] }

/-- Second simultaneous step (id 3), chained onto step 2. -/
def exD : ReleaseStep :=
  { id := 3, releasePlanId := 0, status := StepStatus.not_started,
    schedulingType := SchedulingType.simultaneous, scheduledTime := none,
    dependsOnStepId := none, simultaneousWithStepId := some 2, teamLeadId := none,
    primaryPocId := none, backupPocId := none, startedAt := none, completedAt := none }

/-- Chain database with a two-step simultaneous chain `B ← C ← D`. -/
def exDbChain2 : DB :=
  { steps := [exA, exB, exC, exD],
    plans := [{ id := 0, status := PlanStatus.active, createdAt := 0 }],
    history := [], planWrites := [], completionReqs := [], stepTriggerReqs := [] }

/-- Completed step (id 7) of plan 3. -/
def exDone : ReleaseStep :=
  { id := 7, releasePlanId := 3, status := StepStatus.completed,
    schedulingType := SchedulingType.manual, scheduledTime := none,
    dependsOnStepId := none, simultaneousWithStepId := none, teamLeadId := none,
    primaryPocId := none, backupPocId := none, startedAt := some 2, completedAt := some 5 }

/-- Database whose plan 3 has exactly one step, already completed. -/
def exDbAllDone : DB :=
  { steps := [exDone], plans := [{ id := 3, status := PlanStatus.active, createdAt := 0 }],
    history := [], planWrites := [], completionReqs := [], stepTriggerReqs := [] }

/-- Manual step (id 1), not started. -/
def exManual : ReleaseStep :=
  { id := 1, releasePlanId := 0, status := StepStatus.not_started,
    schedulingType := SchedulingType.manual, scheduledTime := none,
    dependsOnStepId := none, simultaneousWithStepId := none, teamLeadId := none,
    primaryPocId := none, backupPocId := none, startedAt := none, completedAt := none }

/-- Database with manual step 1 and step 2 configured simultaneous-with-1. -/
def exDbManualPair : DB :=
  { steps := [exManual, exC],
    plans := [{ id := 0, status := PlanStatus.planning, createdAt := 0 }],
    history := [], planWrites := [], completionReqs := [], stepTriggerReqs := [] }

/-- Due fixed-time step (id 1): `scheduledTime = 0`, not started. -/
def exFixedDue : ReleaseStep :=
  { id := 1, releasePlanId := 0, status := StepStatus.not_started,
    schedulingType := SchedulingType.fixed_time, scheduledTime := some 0,
    dependsOnStepId := none, simultaneousWithStepId := none, teamLeadId := none,
    primaryPocId := none, backupPocId := none, startedAt := none, completedAt := none }

/-- Database with the single due fixed-time step and its plan in `planning`. -/
def exDbFixed : DB :=
  { steps := [exFixedDue],
    plans := [{ id := 0, status := PlanStatus.planning, createdAt := 0 }],
    history := [], planWrites := [], completionReqs := [], stepTriggerReqs := [] }

/-- Fixed-time step (id 4) whose `scheduledTime` is unset. -/
def exFixedNoTime : ReleaseStep :=
  { id := 4, releasePlanId := 0, status := StepStatus.not_started,
    schedulingType := SchedulingType.fixed_time, scheduledTime := none,
    dependsOnStepId := none, simultaneousWithStepId := none, teamLeadId := none,
    primaryPocId := none, backupPocId := none, startedAt := none, completedAt := none }

/-- Database holding only the timeless fixed-time step. -/
def exDbNoTime : DB :=
  { steps := [exFixedNoTime], plans := [], history := [], planWrites := [],
    completionReqs := [], stepTriggerReqs := [] }

/-- C1: the scheduler's trigger path does not re-check the persisted status before
writing.  In the chain `A (completed) ← B (after_step) ← C (simultaneous with B)`, a
single dependency pass triggers `B`, cascades into `C`, and then — reaching `C` in
its stale `not_started` snapshot with `B` now `started` — triggers `C` a second time:
the pass ends with two identical `not_started → started` history rows for step 2
instead of the silent skip the claim requires. -/
theorem C1_trigger_unguarded_duplicate_history :
    historyCount exDbChain 2 = 0 ∧
    statusOf exDbChain 2 = some StepStatus.not_started ∧
    (checkDependentSteps 5 exDbChain 100).history =
      [{ stepId := 1, previousStatus := StepStatus.not_started,
         newStatus := StepStatus.started, changedBy := Actor.system },
       { stepId := 2, previousStatus := StepStatus.not_started,
         newStatus := StepStatus.started, changedBy := Actor.system },
       { stepId := 2, previousStatus := StepStatus.not_started,
         newStatus := StepStatus.started, changedBy := Actor.system }] := by
  refine ⟨by decide, by decide, by decide⟩

/-- C2: completion detection is not idempotent.  On a plan whose single step is
completed, the first invocation of `checkReleaseCompletion` writes `completed` to the
plan; a second invocation repeats both side effects, ending with two plan-status
writes and two completion-notification requests — and
`checkAndNotifyReleaseCompletion` behaves the same way. -/
theorem C2_completion_check_not_idempotent :
    planStatusOf (checkReleaseCompletion exDbAllDone 3) 3 = some PlanStatus.completed ∧
    (checkReleaseCompletion (checkReleaseCompletion exDbAllDone 3) 3).planWrites =
      [(3, PlanStatus.completed), (3, PlanStatus.completed)] ∧
    (checkReleaseCompletion (checkReleaseCompletion exDbAllDone 3) 3).completionReqs =
      [3, 3] ∧
    (checkAndNotifyReleaseCompletion
        (checkAndNotifyReleaseCompletion exDbAllDone 3) 3).planWrites =
      [(3, PlanStatus.completed), (3, PlanStatus.completed)] ∧
    (checkAndNotifyReleaseCompletion
        (checkAndNotifyReleaseCompletion exDbAllDone 3) 3).completionReqs =
      [3, 3] := by
  refine ⟨by decide, by decide, by decide, by decide, by decide⟩

/-- C3 counterexample: the manual-trigger route does not run the simultaneous-step
cascade.  Step 2 is `simultaneous` with step 1 and `not_started`; manually triggering
step 1 succeeds (HTTP 200, step 1 `started`) yet step 2 is still `not_started` when
the request finishes, contradicting the claim that every trigger path cascades within
the same evaluation pass. -/
theorem C3_manual_trigger_skips_cascade :
    (manualTriggerStep exDbManualPair 1 9 50).2 = 200 ∧
    statusOf (manualTriggerStep exDbManualPair 1 9 50).1 1 = some StepStatus.started ∧
    statusOf (manualTriggerStep exDbManualPair 1 9 50).1 2 =
      some StepStatus.not_started := by
  refine ⟨by decide, by decide, by decide⟩

/-- C6 counterexample: a scheduler-driven status change does not recompute the plan
status.  One poll tick triggers the due fixed-time step of a `planning` plan; the
derivation of the claim would yield `active` (one step `started`), but the plan is
still `planning` after the tick. -/
theorem C6_scheduler_trigger_skips_plan_derivation :
    statusOf (schedulerTick 5 exDbFixed 10) 1 = some StepStatus.started ∧
    planStatusOf (schedulerTick 5 exDbFixed 10) 0 = some PlanStatus.planning := by
  refine ⟨by decide, by decide⟩

/-- C8 counterexample: a `fixed_time`, `not_started` step with no `scheduledTime` IS
selected by the fixed-time query — `getStepsForScheduling` filters only on
`schedulingType` and `status` — contradicting the claim that such a step is never
selected.  (It is skipped afterwards by the per-step guard; see the amended
theorem.) -/
theorem C8_timeless_step_is_selected :
    getStepsForScheduling exDbNoTime = [exFixedNoTime] := by decide

/-! Basic facts about the embedded persistence layer. -/

/-- Fields of a step that no scheduler write ever changes (everything except
`status` and `startedAt`). -/
def sameStatic (a b : ReleaseStep) : Prop :=
  b.id = a.id ∧ b.releasePlanId = a.releasePlanId ∧
  b.schedulingType = a.schedulingType ∧ b.scheduledTime = a.scheduledTime ∧
  b.dependsOnStepId = a.dependsOnStepId ∧
  b.simultaneousWithStepId = a.simultaneousWithStepId ∧
  b.teamLeadId = a.teamLeadId ∧ b.primaryPocId = a.primaryPocId ∧
  b.backupPocId = a.backupPocId ∧ b.completedAt = a.completedAt

/-- Evolution of one step under the scheduler: static fields are kept and the status
either stays or moves `not_started → started`. -/
def relStepS (a b : ReleaseStep) : Prop :=
  sameStatic a b ∧
  (b.status = a.status ∨ (a.status = StepStatus.not_started ∧ b.status = StepStatus.started))

theorem sameStatic_refl (a : ReleaseStep) : sameStatic a a := by
  unfold sameStatic; repeat' constructor

theorem sameStatic_trans {a b c : ReleaseStep} (h1 : sameStatic a b) (h2 : sameStatic b c) :
    sameStatic a c := by
  unfold sameStatic at *
  obtain ⟨e1, e2, e3, e4, e5, e6, e7, e8, e9, e10⟩ := h1
  obtain ⟨f1, f2, f3, f4, f5, f6, f7, f8, f9, f10⟩ := h2
  exact ⟨f1.trans e1, f2.trans e2, f3.trans e3, f4.trans e4, f5.trans e5,
         f6.trans e6, f7.trans e7, f8.trans e8, f9.trans e9, f10.trans e10⟩

theorem relStepS_refl (a : ReleaseStep) : relStepS a a :=
  ⟨sameStatic_refl a, Or.inl rfl⟩

theorem relStepS_trans {a b c : ReleaseStep} (h1 : relStepS a b) (h2 : relStepS b c) :
    relStepS a c := by
  refine ⟨sameStatic_trans h1.1 h2.1, ?_⟩
  rcases h1.2 with hb | ⟨ha, hb⟩
  · rcases h2.2 with hc | ⟨hb', hc⟩
    · exact Or.inl (hc.trans hb)
    · exact Or.inr ⟨hb ▸ hb', hc⟩
  · rcases h2.2 with hc | ⟨hb', hc⟩
    · exact Or.inr ⟨ha, hc.trans hb⟩
    · exact Or.inr ⟨ha, hc⟩

/-- Static evolution of the whole steps table (unconditional). -/
def staticEvolve (db db' : DB) : Prop := List.Forall₂ sameStatic db.steps db'.steps

/-- Status evolution of the whole steps table. -/
def stepsEvolve (db db' : DB) : Prop := List.Forall₂ relStepS db.steps db'.steps

theorem staticEvolve_refl (db : DB) : staticEvolve db db :=
  List.forall₂_same.mpr (fun a _ => sameStatic_refl a)

theorem stepsEvolve_refl (db : DB) : stepsEvolve db db :=
  List.forall₂_same.mpr (fun a _ => relStepS_refl a)

theorem forall2_trans_of {α : Type} {R : α → α → Prop}
    (hT : ∀ a b c, R a b → R b c → R a c) :
    ∀ {l1 l2 l3 : List α}, List.Forall₂ R l1 l2 → List.Forall₂ R l2 l3 →
      List.Forall₂ R l1 l3 := by
  intro l1 l2 l3 h1
  induction h1 generalizing l3 with
  | nil => intro h2; cases h2; exact List.Forall₂.nil
  | cons hab _ ih =>
    intro h2
    cases h2 with
    | cons hbc h2' => exact List.Forall₂.cons (hT _ _ _ hab hbc) (ih h2')

theorem staticEvolve_trans {db1 db2 db3 : DB}
    (h1 : staticEvolve db1 db2) (h2 : staticEvolve db2 db3) : staticEvolve db1 db3 := by
  unfold staticEvolve at h1 h2 ⊢
  exact @forall2_trans_of ReleaseStep sameStatic
    (fun _ _ _ hab hbc => sameStatic_trans hab hbc) _ _ _ h1 h2

theorem stepsEvolve_trans {db1 db2 db3 : DB}
    (h1 : stepsEvolve db1 db2) (h2 : stepsEvolve db2 db3) : stepsEvolve db1 db3 := by
  unfold stepsEvolve at h1 h2 ⊢
  exact @forall2_trans_of ReleaseStep relStepS
    (fun _ _ _ hab hbc => relStepS_trans hab hbc) _ _ _ h1 h2

theorem stepsEvolve_static {db db' : DB} (h : stepsEvolve db db') : staticEvolve db db' :=
  List.Forall₂.imp (fun _ _ hr => hr.1) h

/-- Transport of an id lookup along a `Forall₂` whose relation preserves ids. -/
theorem find_forall2 {R : ReleaseStep → ReleaseStep → Prop}
    (hid : ∀ a b, R a b → b.id = a.id) :
    ∀ {l l' : List ReleaseStep}, List.Forall₂ R l l' → ∀ x,
      (l.find? (fun s => decide (s.id = x)) = none ∧
       l'.find? (fun s => decide (s.id = x)) = none) ∨
      (∃ a b, l.find? (fun s => decide (s.id = x)) = some a ∧
              l'.find? (fun s => decide (s.id = x)) = some b ∧ R a b) := by
  intro l l' h
  induction h with
  | nil => intro x; left; exact ⟨rfl, rfl⟩
  | @cons a b l1 l2 hab htl ih =>
    intro x
    by_cases hx : a.id = x
    · right
      exact ⟨a, b, List.find?_cons_of_pos _ (by simp [hx]),
             List.find?_cons_of_pos _ (by simp [(hid a b hab).trans hx]), hab⟩
    · have hbx : ¬ b.id = x := by rw [hid a b hab]; exact hx
      rcases ih x with ⟨h1, h2⟩ | ⟨a', b', h1, h2, hr⟩
      · left
        exact ⟨by rw [List.find?_cons_of_neg _ (by simp [hx])]; exact h1,
               by rw [List.find?_cons_of_neg _ (by simp [hbx])]; exact h2⟩
      · right
        exact ⟨a', b', by rw [List.find?_cons_of_neg _ (by simp [hx])]; exact h1,
               by rw [List.find?_cons_of_neg _ (by simp [hbx])]; exact h2, hr⟩

/-- With pairwise-distinct ids, an id lookup of a member returns that member. -/
theorem find_of_mem_nodup :
    ∀ {l : List ReleaseStep}, (l.map (fun s => s.id)).Nodup →
      ∀ {a : ReleaseStep}, a ∈ l → l.find? (fun s => decide (s.id = a.id)) = some a := by
  intro l
  induction l with
  | nil => intro _ a ha; cases ha
  | cons h t ih =>
    intro hnd a ha
    rw [List.map_cons, List.nodup_cons] at hnd
    rcases List.mem_cons.mp ha with rfl | hat
    · exact List.find?_cons_of_pos _ (by simp)
    · have hne : ¬ h.id = a.id := by
        intro he
        exact hnd.1 (he ▸ List.mem_map_of_mem (fun s => s.id) hat)
      rw [List.find?_cons_of_neg _ (by simp [hne])]
      exact ih hnd.2 hat

/-- With pairwise-distinct ids, members are determined by their id. -/
theorem id_inj_of_nodup {l : List ReleaseStep} (hnd : (l.map (fun s => s.id)).Nodup)
    {a b : ReleaseStep} (ha : a ∈ l) (hb : b ∈ l) (hid : a.id = b.id) : a = b := by
  have h1 := find_of_mem_nodup hnd ha
  have h2 := find_of_mem_nodup hnd hb
  rw [hid] at h1
  rw [h1] at h2
  exact (Option.some.inj h2)

theorem getStep_some (db : DB) (x : Nat) {a : ReleaseStep} (h : getStep db x = some a) :
    a ∈ db.steps ∧ a.id = x := by
  unfold getStep at h
  exact ⟨List.mem_of_find?_eq_some h, by simpa using List.find?_some h⟩

theorem getStep_of_mem {db : DB} (hnd : uniqueIds db) {a : ReleaseStep}
    (ha : a ∈ db.steps) : getStep db a.id = some a :=
  find_of_mem_nodup hnd ha

/-- Relations that keep ids transport the id column of a table. -/
theorem forall2_map_ids {R : ReleaseStep → ReleaseStep → Prop}
    (hid : ∀ a b, R a b → b.id = a.id) :
    ∀ {l l' : List ReleaseStep}, List.Forall₂ R l l' →
      l.map (fun s => s.id) = l'.map (fun s => s.id) := by
  intro l l' h
  induction h with
  | nil => rfl
  | cons hab _ ih => simp [hid _ _ hab, ih]

/-- Static evolution keeps the id column of the steps table. -/
theorem staticEvolve_ids {db db' : DB} (h : staticEvolve db db') :
    db.steps.map (fun s => s.id) = db'.steps.map (fun s => s.id) :=
  forall2_map_ids (fun _ _ hr => hr.1) h

theorem uniqueIds_evolve {db db' : DB} (h : staticEvolve db db') (hu : uniqueIds db) :
    uniqueIds db' := by
  unfold uniqueIds at *
  rw [← staticEvolve_ids h]
  exact hu

theorem getStep_staticEvolve {db db' : DB} (h : staticEvolve db db') (x : Nat)
    {a : ReleaseStep} (ha : getStep db x = some a) :
    ∃ b, getStep db' x = some b ∧ sameStatic a b := by
  rcases find_forall2 (fun _ _ hr => hr.1) h x with ⟨h1, _⟩ | ⟨a', b, h1, h2, hr⟩
  · rw [getStep] at ha; rw [h1] at ha; cases ha
  · rw [getStep] at ha; rw [h1] at ha
    have haa : a' = a := Option.some.inj ha
    subst haa
    exact ⟨b, h2, hr⟩

theorem getStep_stepsEvolve {db db' : DB} (h : stepsEvolve db db') (x : Nat)
    {a : ReleaseStep} (ha : getStep db x = some a) :
    ∃ b, getStep db' x = some b ∧ relStepS a b := by
  rcases find_forall2 (fun _ _ hr => hr.1.1) h x with ⟨h1, _⟩ | ⟨a', b, h1, h2, hr⟩
  · rw [getStep] at ha; rw [h1] at ha; cases ha
  · rw [getStep] at ha; rw [h1] at ha
    have haa : a' = a := Option.some.inj ha
    subst haa
    exact ⟨b, h2, hr⟩

theorem getStep_none_staticEvolve {db db' : DB} (h : staticEvolve db db') (x : Nat)
    (ha : getStep db x = none) : getStep db' x = none := by
  rcases find_forall2 (fun _ _ hr => hr.1) h x with ⟨_, h2⟩ | ⟨a', b, h1, _, _⟩
  · exact h2
  · rw [getStep] at ha; rw [h1] at ha; cases ha

/-- Statuses other than `not_started` are frozen along status evolution. -/
theorem statusOf_frozen {db db' : DB} (h : stepsEvolve db db') {x : Nat}
    {st : StepStatus} (hst : statusOf db x = some st)
    (hns : st ≠ StepStatus.not_started) : statusOf db' x = some st := by
  unfold statusOf at *
  cases hga : getStep db x with
  | none => rw [hga] at hst; cases hst
  | some a =>
    rw [hga] at hst
    obtain ⟨b, hb, hr⟩ := getStep_stepsEvolve h x hga
    rw [hb]
    simp only [Option.map_some'] at hst ⊢
    rcases hr.2 with he | ⟨hans, _⟩
    · rw [he]; exact hst
    · exact absurd (by rw [← Option.some.inj hst]; exact hans) hns

/-! Facts about `writeStepStarted` and the snapshot queries. -/

theorem writeStep_static (l : List ReleaseStep) (t n : Nat) :
    List.Forall₂ sameStatic l (writeStepStarted l t n) := by
  unfold writeStepStarted
  rw [List.forall₂_map_right_iff]
  refine List.forall₂_same.mpr (fun a _ => ?_)
  by_cases h : a.id = t <;> simp [h, sameStatic]

theorem writeStep_rel (l : List ReleaseStep) (t n : Nat)
    (hgood : ∀ a ∈ l, a.id = t →
      a.status = StepStatus.not_started ∨ a.status = StepStatus.started) :
    List.Forall₂ relStepS l (writeStepStarted l t n) := by
  unfold writeStepStarted
  rw [List.forall₂_map_right_iff]
  refine List.forall₂_same.mpr (fun a ha => ?_)
  by_cases h : a.id = t
  · refine ⟨by simp [h, sameStatic], ?_⟩
    rcases hgood a ha h with hst | hst
    · exact Or.inr (by simp [h, hst])
    · exact Or.inl (by simp [h, hst])
  · simp [h, relStepS_refl]

/-- An id lookup commutes with an id-preserving rewrite of the table. -/
theorem find_map_id {g : ReleaseStep → ReleaseStep} (hid : ∀ a, (g a).id = a.id) :
    ∀ (l : List ReleaseStep) (x : Nat),
      (l.map g).find? (fun s => decide (s.id = x)) =
        (l.find? (fun s => decide (s.id = x))).map g := by
  intro l x
  induction l with
  | nil => rfl
  | cons a l ih =>
    rw [List.map_cons]
    by_cases hax : a.id = x
    · rw [List.find?_cons_of_pos _ (by rw [hid a]; simp [hax]),
          List.find?_cons_of_pos _ (by simp [hax])]
      rfl
    · rw [List.find?_cons_of_neg _ (by rw [hid a]; simp [hax]),
          List.find?_cons_of_neg _ (by simp [hax])]
      exact ih

theorem writeStep_id (t n : Nat) (a : ReleaseStep) :
    ((fun s => if s.id = t
        then { s with status := StepStatus.started, startedAt := some n }
        else s) a).id = a.id := by
  by_cases h : a.id = t <;> simp [h]

theorem find_writeStep_ne (l : List ReleaseStep) (t n x : Nat) (hx : ¬ t = x) :
    (writeStepStarted l t n).find? (fun s => decide (s.id = x)) =
      l.find? (fun s => decide (s.id = x)) := by
  unfold writeStepStarted
  rw [find_map_id (writeStep_id t n) l x]
  cases hf : l.find? (fun s => decide (s.id = x)) with
  | none => rfl
  | some a =>
    have hax : a.id = x := by simpa using List.find?_some hf
    have hat : ¬ a.id = t := fun he => hx (he ▸ hax)
    simp [hat]

theorem find_writeStep_self (l : List ReleaseStep) (t n : Nat) :
    (writeStepStarted l t n).find? (fun s => decide (s.id = t)) =
      (l.find? (fun s => decide (s.id = t))).map
        (fun s => { s with status := StepStatus.started, startedAt := some n }) := by
  unfold writeStepStarted
  rw [find_map_id (writeStep_id t n) l t]
  cases hf : l.find? (fun s => decide (s.id = t)) with
  | none => rfl
  | some a =>
    have hat : a.id = t := by simpa using List.find?_some hf
    simp [hat]

theorem mem_writeStep_of_ne {l : List ReleaseStep} {a : ReleaseStep} (ha : a ∈ l)
    (t n : Nat) (hne : ¬ a.id = t) : a ∈ writeStepStarted l t n := by
  unfold writeStepStarted
  have : a = (fun s => if s.id = t
      then { s with status := StepStatus.started, startedAt := some n } else s) a := by
    simp [hne]
  rw [this]
  exact List.mem_map_of_mem _ ha

theorem mem_simultaneousSnapshot {db : DB} {trigId : Nat} {e : ReleaseStep} :
    e ∈ simultaneousSnapshot db trigId ↔
      e ∈ db.steps ∧ e.status = StepStatus.not_started ∧
      e.schedulingType = SchedulingType.simultaneous ∧
      e.simultaneousWithStepId = some trigId := by
  unfold simultaneousSnapshot
  simp [List.mem_filter, and_assoc]

theorem mem_getStepsByStatus {db : DB} {st : StepStatus} {e : ReleaseStep} :
    e ∈ getStepsByStatus db st ↔ e ∈ db.steps ∧ e.status = st := by
  unfold getStepsByStatus
  simp [List.mem_filter]

theorem mem_getStepsForScheduling {db : DB} {e : ReleaseStep} :
    e ∈ getStepsForScheduling db ↔
      e ∈ db.steps ∧ e.schedulingType = SchedulingType.fixed_time ∧
      e.status = StepStatus.not_started := by
  unfold getStepsForScheduling
  simp [List.mem_filter, and_assoc]

theorem mem_getStepsByReleasePlan {db : DB} {pid : Nat} {e : ReleaseStep} :
    e ∈ getStepsByReleasePlan db pid ↔ e ∈ db.steps ∧ e.releasePlanId = pid := by
  unfold getStepsByReleasePlan
  simp [List.mem_filter]

/-! Scheduler operations leave the plans table and the plan-level logs alone. -/

/-- State relation: the plans table, the plan-write log and the completion-request
log are unchanged. -/
def plansKept (db db' : DB) : Prop :=
  db'.plans = db.plans ∧ db'.planWrites = db.planWrites ∧
  db'.completionReqs = db.completionReqs

theorem plansKept_refl (db : DB) : plansKept db db := ⟨rfl, rfl, rfl⟩

theorem plansKept_trans {db1 db2 db3 : DB} (h1 : plansKept db1 db2)
    (h2 : plansKept db2 db3) : plansKept db1 db3 :=
  ⟨h2.1.trans h1.1, h2.2.1.trans h1.2.1, h2.2.2.trans h1.2.2⟩

/-- Generic preservation along a left fold: any reflexive transitive state relation
preserved by each step of the fold is preserved by the whole fold. -/
theorem foldl_keeps {β : Type} {Q : DB → DB → Prop} {f : DB → β → DB}
    (hrefl : ∀ d, Q d d) (htrans : ∀ a b c, Q a b → Q b c → Q a c)
    (hstep : ∀ d b, Q d (f d b)) :
    ∀ (l : List β) (db : DB), Q db (l.foldl f db) := by
  intro l
  induction l with
  | nil => intro db; exact hrefl db
  | cons b l ih =>
    intro db
    exact htrans _ _ _ (hstep db b) (ih (f db b))

theorem triggerStep_plansKept :
    ∀ (fuel : Nat) (db : DB) (s : ReleaseStep) (now : Nat),
      plansKept db (triggerStep fuel db s now) := by
  intro fuel
  induction fuel with
  | zero => intro db s now; exact plansKept_refl db
  | succ f ih =>
    intro db s now
    rw [triggerStep]
    refine plansKept_trans ?_
      (foldl_keeps plansKept_refl (fun _ _ _ => plansKept_trans) (fun d t => ih d t now) _ _)
    exact ⟨rfl, rfl, rfl⟩

theorem triggerStep_succ (f : Nat) (db : DB) (s : ReleaseStep) (now : Nat) :
    triggerStep (Nat.succ f) db s now =
      (simultaneousSnapshot (trigWrite db s now) s.id).foldl
        (fun d t => triggerStep f d t now) (trigWrite db s now) := rfl

/-- Membership transport from the right list of a `Forall₂`. -/
theorem forall2_mem_right {α : Type} {R : α → α → Prop} :
    ∀ {l l' : List α}, List.Forall₂ R l l' → ∀ b ∈ l', ∃ a ∈ l, R a b := by
  intro l l' h
  induction h with
  | nil => intro b hb; cases hb
  | cons hab _ ih =>
    intro b hb
    rcases List.mem_cons.mp hb with rfl | hb'
    · exact ⟨_, by simp, hab⟩
    · obtain ⟨a, ha, hr⟩ := ih b hb'
      exact ⟨a, by simp [ha], hr⟩

/-- Every step currently stored under id `x` may legally be written to `started`:
its status is `not_started` or `started`. -/
def goodTarget (db : DB) (x : Nat) : Prop :=
  ∀ a ∈ db.steps, a.id = x →
    a.status = StepStatus.not_started ∨ a.status = StepStatus.started

theorem goodTarget_evolve {db db' : DB} (h : stepsEvolve db db') {x : Nat}
    (hg : goodTarget db x) : goodTarget db' x := by
  intro b hb hbx
  obtain ⟨a, ha, hr⟩ := forall2_mem_right h b hb
  rcases hg a ha (by rw [← hr.1.1]; exact hbx) with hst | hst
  · rcases hr.2 with he | ⟨_, he⟩
    · exact Or.inl (he.trans hst)
    · exact Or.inr he
  · rcases hr.2 with he | ⟨_, he⟩
    · exact Or.inr (he.trans hst)
    · exact Or.inr he

theorem goodTarget_of_ns {db : DB} (hu : uniqueIds db) {e : ReleaseStep}
    (he : e ∈ db.steps)
    (hst : e.status = StepStatus.not_started ∨ e.status = StepStatus.started) :
    goodTarget db e.id := by
  intro a ha haid
  have : a = e := id_inj_of_nodup hu ha he haid
  rw [this]
  exact hst

/-- Status evolution induced by one (possibly cascading) `triggerStep` call whose
target currently has a writable status. -/
theorem triggerStep_evolve :
    ∀ (fuel : Nat) (db : DB) (s : ReleaseStep) (now : Nat), uniqueIds db →
      goodTarget db s.id → stepsEvolve db (triggerStep fuel db s now) := by
  intro fuel
  induction fuel with
  | zero => intro db s now _ _; exact stepsEvolve_refl db
  | succ f ih =>
    have fold : ∀ (l : List ReleaseStep) (db : DB) (now : Nat), uniqueIds db →
        (∀ e ∈ l, goodTarget db e.id) →
        stepsEvolve db (l.foldl (fun d t => triggerStep f d t now) db) := by
      intro l
      induction l with
      | nil => intro db now _ _; exact stepsEvolve_refl db
      | cons e l ihl =>
        intro db now hu hg
        rw [List.foldl_cons]
        have h1 : stepsEvolve db (triggerStep f db e now) :=
          ih db e now hu (hg e (by simp))
        refine stepsEvolve_trans h1 (ihl _ now ?_ ?_)
        · exact uniqueIds_evolve (stepsEvolve_static h1) hu
        · intro e' he'
          exact goodTarget_evolve h1 (hg e' (by simp [he']))
    intro db s now hu hg
    rw [triggerStep_succ]
    have hw : stepsEvolve db (trigWrite db s now) :=
      writeStep_rel db.steps s.id now (fun a ha haid => hg a ha haid)
    refine stepsEvolve_trans hw (fold _ _ now ?_ ?_)
    · exact uniqueIds_evolve (stepsEvolve_static hw) hu
    · intro e he
      rw [mem_simultaneousSnapshot] at he
      exact goodTarget_of_ns (uniqueIds_evolve (stepsEvolve_static hw) hu) he.1
        (Or.inl he.2.1)

/-- Nothing can cascade into step `x`: if `x` is a `not_started` `simultaneous` step,
its partner is inert (neither `not_started` nor `started`), so no trigger of the
partner can occur. -/
def partnerInert (db : DB) (x : Nat) : Prop :=
  ∀ a, getStep db x = some a → a.schedulingType = SchedulingType.simultaneous →
    a.status = StepStatus.not_started →
    ∀ m, a.simultaneousWithStepId = some m →
      ∀ b, getStep db m = some b →
        ¬ b.status = StepStatus.not_started ∧ ¬ b.status = StepStatus.started

/-- If `x` is a `not_started` `simultaneous` step, its partner is not the id `tid`
that is being triggered right now. -/
def avoidsParent (db : DB) (x tid : Nat) : Prop :=
  ∀ a, getStep db x = some a → a.schedulingType = SchedulingType.simultaneous →
    a.status = StepStatus.not_started →
    ∀ m, a.simultaneousWithStepId = some m → ¬ m = tid

theorem partnerInert_evolve {db db' : DB} (h : stepsEvolve db db') {x : Nat}
    (hkx : getStep db' x = getStep db x) (hp : partnerInert db x) :
    partnerInert db' x := by
  intro a hga hsim hns m hm b' hgb
  rw [hkx] at hga
  cases hgb' : getStep db m with
  | none =>
    have := getStep_none_staticEvolve (stepsEvolve_static h) m hgb'
    rw [this] at hgb; cases hgb
  | some b =>
    obtain ⟨b'', hb'', hr⟩ := getStep_stepsEvolve h m hgb'
    rw [hb''] at hgb
    have hbb : b'' = b' := Option.some.inj hgb
    subst hbb
    have hin := hp a hga hsim hns m hm b hgb'
    rcases hr.2 with he | ⟨hbns, _⟩
    · exact ⟨by rw [he]; exact hin.1, by rw [he]; exact hin.2⟩
    · exact absurd hbns hin.1

/-- One `triggerStep` call leaves step `x` completely unchanged when `x` is not its
target, cannot be cascaded into, and its potential cascade parent is not the
target. -/
theorem triggerStep_keeps :
    ∀ (fuel : Nat) (db : DB) (s : ReleaseStep) (now x : Nat), uniqueIds db →
      ¬ s.id = x → partnerInert db x → avoidsParent db x s.id →
      getStep (triggerStep fuel db s now) x = getStep db x := by
  intro fuel
  induction fuel with
  | zero => intro db s now x _ _ _ _; rfl
  | succ f ih =>
    have fold : ∀ (l : List ReleaseStep) (db : DB) (now x : Nat), uniqueIds db →
        partnerInert db x → (∀ e ∈ l, ¬ e.id = x) → (∀ e ∈ l, goodTarget db e.id) →
        (∀ e ∈ l, (getStep db e.id).isSome) →
        getStep (l.foldl (fun d t => triggerStep f d t now) db) x = getStep db x := by
      intro l
      induction l with
      | nil => intro db now x _ _ _ _ _; rfl
      | cons e l ihl =>
        intro db now x hu hpi hnx hg hsome
        rw [List.foldl_cons]
        have hex : ¬ e.id = x := hnx e (by simp)
        have hav : avoidsParent db x e.id := by
          intro a hga hsim hns m hm
          intro hme
          cases hcur : getStep db e.id with
          | none =>
            have hs := hsome e (by simp)
            rw [hcur] at hs
            simp at hs
          | some cur =>
            have hcurm : getStep db m = some cur := by rw [hme]; exact hcur
            have hinert := hpi a hga hsim hns m hm cur hcurm
            have hmem := getStep_some db e.id hcur
            rcases hg e (by simp) cur hmem.1 hmem.2 with hst | hst
            · exact hinert.1 hst
            · exact hinert.2 hst
        have hkeep : getStep (triggerStep f db e now) x = getStep db x :=
          ih db e now x hu hex hpi hav
        have hev : stepsEvolve db (triggerStep f db e now) :=
          triggerStep_evolve f db e now hu (hg e (by simp))
        have hu' := uniqueIds_evolve (stepsEvolve_static hev) hu
        rw [ihl (triggerStep f db e now) now x hu'
          (partnerInert_evolve hev hkeep hpi)
          (fun e' he' => hnx e' (by simp [he']))
          (fun e' he' => goodTarget_evolve hev (hg e' (by simp [he'])))
          (fun e' he' => ?_)]
        · exact hkeep
        · cases hc : getStep db e'.id with
          | none =>
            have := hsome e' (by simp [he'])
            rw [hc] at this; cases this
          | some a =>
            obtain ⟨b, hb, _⟩ := getStep_stepsEvolve hev e'.id hc
            rw [hb]; rfl
    intro db s now x hu hsx hpi hav
    rw [triggerStep_succ]
    have hwx : getStep (trigWrite db s now) x = getStep db x :=
      find_writeStep_ne db.steps s.id now x hsx
    have hwm : ∀ m, ¬ m = s.id → getStep (trigWrite db s now) m = getStep db m :=
      fun m hm => find_writeStep_ne db.steps s.id now m (fun he => hm he.symm)
    have hu' : uniqueIds (trigWrite db s now) :=
      uniqueIds_evolve (writeStep_static db.steps s.id now) hu
    have hpi' : partnerInert (trigWrite db s now) x := by
      intro a hga hsim hns m hm b hgb
      rw [hwx] at hga
      have hmne : ¬ m = s.id := hav a hga hsim hns m hm
      rw [hwm m hmne] at hgb
      exact hpi a hga hsim hns m hm b hgb
    rw [fold _ _ now x hu' hpi' ?_ ?_ ?_]
    · exact hwx
    · intro e he hex
      rw [mem_simultaneousSnapshot] at he
      have : getStep (trigWrite db s now) x = some e := by
        rw [← hex]; exact getStep_of_mem hu' he.1
      rw [hwx] at this
      exact hav e this he.2.2.1 he.2.1 s.id he.2.2.2 rfl
    · intro e he
      rw [mem_simultaneousSnapshot] at he
      exact goodTarget_of_ns hu' he.1 (Or.inl he.2.1)
    · intro e he
      rw [mem_simultaneousSnapshot] at he
      rw [getStep_of_mem hu' he.1]
      rfl

/-- Status evolution along a cascade fold. -/
theorem cascadeFold_evolve (f : Nat) :
    ∀ (l : List ReleaseStep) (db : DB) (now : Nat), uniqueIds db →
      (∀ e ∈ l, goodTarget db e.id) →
      stepsEvolve db (l.foldl (fun d t => triggerStep f d t now) db) := by
  intro l
  induction l with
  | nil => intro db now _ _; exact stepsEvolve_refl db
  | cons e l ihl =>
    intro db now hu hg
    rw [List.foldl_cons]
    have h1 : stepsEvolve db (triggerStep f db e now) :=
      triggerStep_evolve f db e now hu (hg e (by simp))
    refine stepsEvolve_trans h1 (ihl _ now ?_ ?_)
    · exact uniqueIds_evolve (stepsEvolve_static h1) hu
    · intro e' he'
      exact goodTarget_evolve h1 (hg e' (by simp [he']))

/-- A `triggerStep` call with fuel left marks its target `started`. -/
theorem triggerStep_starts (fuel : Nat) (db : DB) (s : ReleaseStep) (now : Nat)
    (hu : uniqueIds db) (hf : 1 ≤ fuel) (hsome : (getStep db s.id).isSome) :
    statusOf (triggerStep fuel db s now) s.id = some StepStatus.started := by
  cases fuel with
  | zero => cases hf
  | succ f =>
    rw [triggerStep_succ]
    cases hga : getStep db s.id with
    | none => rw [hga] at hsome; simp at hsome
    | some a =>
      have hW : getStep (trigWrite db s now) s.id =
          some { a with status := StepStatus.started, startedAt := some now } := by
        show (writeStepStarted db.steps s.id now).find? (fun t => decide (t.id = s.id)) = _
        rw [find_writeStep_self db.steps s.id now]
        rw [show db.steps.find? (fun t => decide (t.id = s.id)) = some a from hga]
        rfl
      have huW : uniqueIds (trigWrite db s now) :=
        uniqueIds_evolve (writeStep_static db.steps s.id now) hu
      have hev : stepsEvolve (trigWrite db s now)
          ((simultaneousSnapshot (trigWrite db s now) s.id).foldl
            (fun d t => triggerStep f d t now) (trigWrite db s now)) := by
        refine cascadeFold_evolve f _ _ now huW ?_
        intro e he
        rw [mem_simultaneousSnapshot] at he
        exact goodTarget_of_ns huW he.1 (Or.inl he.2.1)
      refine statusOf_frozen hev ?_ (by simp)
      unfold statusOf
      rw [hW]
      rfl

/-- Every element of a cascade fold list gets started by the fold. -/
theorem cascadeFold_starts (f : Nat) :
    ∀ (l : List ReleaseStep) (db : DB) (now : Nat) (c : ReleaseStep), uniqueIds db →
      (∀ e ∈ l, goodTarget db e.id) → (∀ e ∈ l, (getStep db e.id).isSome) →
      1 ≤ f → c ∈ l →
      statusOf (l.foldl (fun d t => triggerStep f d t now) db) c.id =
        some StepStatus.started := by
  intro l
  induction l with
  | nil => intro db now c _ _ _ _ hc; cases hc
  | cons e l ihl =>
    intro db now c hu hg hsome hf hc
    rw [List.foldl_cons]
    have h1 : stepsEvolve db (triggerStep f db e now) :=
      triggerStep_evolve f db e now hu (hg e (by simp))
    have hu' := uniqueIds_evolve (stepsEvolve_static h1) hu
    rcases List.mem_cons.mp hc with rfl | hcl
    · have hst : statusOf (triggerStep f db c now) c.id = some StepStatus.started :=
        triggerStep_starts f db c now hu hf (hsome c (by simp))
      have hev2 := cascadeFold_evolve f l (triggerStep f db c now) now hu'
        (fun e' he' => goodTarget_evolve h1 (hg e' (by simp [he'])))
      exact statusOf_frozen hev2 hst (by simp)
    · refine ihl _ now c hu'
        (fun e' he' => goodTarget_evolve h1 (hg e' (by simp [he'])))
        (fun e' he' => ?_) hf hcl
      cases hcur : getStep db e'.id with
      | none =>
        have hs := hsome e' (by simp [he'])
        rw [hcur] at hs; simp at hs
      | some a =>
        obtain ⟨b, hb, _⟩ := getStep_stepsEvolve h1 e'.id hcur
        rw [hb]; rfl

/-- One level of the simultaneous cascade: every `not_started` `simultaneous` step
pointing at the triggered step's id is `started` when the trigger call returns. -/
theorem triggerStep_cascades (fuel : Nat) (db : DB) (s : ReleaseStep) (now : Nat)
    (c : ReleaseStep) (hu : uniqueIds db) (hf : 2 ≤ fuel) (hc : c ∈ db.steps)
    (hsim : c.schedulingType = SchedulingType.simultaneous)
    (hw : c.simultaneousWithStepId = some s.id)
    (hns : c.status = StepStatus.not_started) :
    statusOf (triggerStep fuel db s now) c.id = some StepStatus.started := by
  by_cases hcs : c.id = s.id
  · rw [hcs]
    exact triggerStep_starts fuel db s now hu (le_trans (by simp) hf)
      (by rw [← hcs, getStep_of_mem hu hc]; rfl)
  · cases fuel with
    | zero => cases hf
    | succ f =>
      rw [triggerStep_succ]
      have huW : uniqueIds (trigWrite db s now) :=
        uniqueIds_evolve (writeStep_static db.steps s.id now) hu
      have hcW : c ∈ (trigWrite db s now).steps :=
        mem_writeStep_of_ne hc s.id now hcs
      have hmem : c ∈ simultaneousSnapshot (trigWrite db s now) s.id := by
        rw [mem_simultaneousSnapshot]
        exact ⟨hcW, hns, hsim, hw⟩
      refine cascadeFold_starts f _ _ now c huW ?_ ?_ (by omega) hmem
      · intro e he
        rw [mem_simultaneousSnapshot] at he
        exact goodTarget_of_ns huW he.1 (Or.inl he.2.1)
      · intro e he
        rw [mem_simultaneousSnapshot] at he
        rw [getStep_of_mem huW he.1]
        rfl

/-- A step whose current status is writable cannot be the inert cascade parent of a
protected step. -/
theorem avoidsParent_of_good {db : DB} {x : Nat} (hpi : partnerInert db x)
    {eid : Nat} (hg : goodTarget db eid) (hsome : (getStep db eid).isSome) :
    avoidsParent db x eid := by
  intro a hga hsim hns m hm hme
  cases hcur : getStep db eid with
  | none => rw [hcur] at hsome; simp at hsome
  | some cur =>
    have hcurm : getStep db m = some cur := by rw [hme]; exact hcur
    have hinert := hpi a hga hsim hns m hm cur hcurm
    have hmem := getStep_some db eid hcur
    rcases hg cur hmem.1 hmem.2 with hst | hst
    · exact hinert.1 hst
    · exact hinert.2 hst

/-- `isSome` of a lookup survives status evolution. -/
theorem isSome_evolve {db db' : DB} (h : stepsEvolve db db') {x : Nat}
    (hs : (getStep db x).isSome) : (getStep db' x).isSome := by
  cases hc : getStep db x with
  | none => rw [hc] at hs; simp at hs
  | some a =>
    obtain ⟨b, hb, _⟩ := getStep_stepsEvolve h x hc
    rw [hb]; rfl

/-! Lemmas about the fixed-time loop (`schedLoop`). -/

theorem schedLoop_evolve (fuel now : Nat) :
    ∀ (l : List ReleaseStep) (db : DB), uniqueIds db →
      (∀ e ∈ l, goodTarget db e.id) → stepsEvolve db (schedLoop fuel now db l) := by
  intro l
  induction l with
  | nil => intro db _ _; exact stepsEvolve_refl db
  | cons e l ihl =>
    intro db hu hg
    rw [schedLoop]
    by_cases hc : schedEligible e now
    · rw [if_pos hc]
      have h1 : stepsEvolve db (triggerStep fuel db e now) :=
        triggerStep_evolve fuel db e now hu (hg e (by simp))
      refine stepsEvolve_trans h1 (ihl _ ?_ ?_)
      · exact uniqueIds_evolve (stepsEvolve_static h1) hu
      · intro e' he'; exact goodTarget_evolve h1 (hg e' (by simp [he']))
    · rw [if_neg hc]
      exact ihl db hu (fun e' he' => hg e' (by simp [he']))

theorem schedLoop_hit (fuel now : Nat) :
    ∀ (l : List ReleaseStep) (db : DB) (s : ReleaseStep), uniqueIds db →
      (∀ e ∈ l, goodTarget db e.id) → (∀ e ∈ l, (getStep db e.id).isSome) →
      1 ≤ fuel → s ∈ l → schedEligible s now = true →
      statusOf (schedLoop fuel now db l) s.id = some StepStatus.started := by
  intro l
  induction l with
  | nil => intro db s _ _ _ _ hs; intro _; cases hs
  | cons e l ihl =>
    intro db s hu hg hsome hf hs hel
    rw [schedLoop]
    rcases List.mem_cons.mp hs with rfl | hsl
    · rw [if_pos hel]
      have hst := triggerStep_starts fuel db s now hu hf (hsome s (by simp))
      have h1 : stepsEvolve db (triggerStep fuel db s now) :=
        triggerStep_evolve fuel db s now hu (hg s (by simp))
      have hu' := uniqueIds_evolve (stepsEvolve_static h1) hu
      exact statusOf_frozen
        (schedLoop_evolve fuel now l _ hu'
          (fun e' he' => goodTarget_evolve h1 (hg e' (by simp [he'])))) hst (by simp)
    · by_cases hc : schedEligible e now
      · rw [if_pos hc]
        have h1 : stepsEvolve db (triggerStep fuel db e now) :=
          triggerStep_evolve fuel db e now hu (hg e (by simp))
        have hu' := uniqueIds_evolve (stepsEvolve_static h1) hu
        exact ihl _ s hu'
          (fun e' he' => goodTarget_evolve h1 (hg e' (by simp [he'])))
          (fun e' he' => isSome_evolve h1 (hsome e' (by simp [he']))) hf hsl hel
      · rw [if_neg hc]
        exact ihl db s hu (fun e' he' => hg e' (by simp [he']))
          (fun e' he' => hsome e' (by simp [he'])) hf hsl hel

theorem schedLoop_keeps (fuel now : Nat) :
    ∀ (l : List ReleaseStep) (db : DB) (x : Nat), uniqueIds db → partnerInert db x →
      (∀ e ∈ l, goodTarget db e.id) → (∀ e ∈ l, (getStep db e.id).isSome) →
      (∀ e ∈ l, e.id = x → schedEligible e now = false) →
      getStep (schedLoop fuel now db l) x = getStep db x := by
  intro l
  induction l with
  | nil => intro db x _ _ _ _ _; rfl
  | cons e l ihl =>
    intro db x hu hpi hg hsome hblock
    rw [schedLoop]
    by_cases hex : e.id = x
    · rw [if_neg (by rw [hblock e (by simp) hex]; simp)]
      exact ihl db x hu hpi (fun e' he' => hg e' (by simp [he']))
        (fun e' he' => hsome e' (by simp [he']))
        (fun e' he' hx => hblock e' (by simp [he']) hx)
    · by_cases hc : schedEligible e now
      · rw [if_pos hc]
        have hav : avoidsParent db x e.id :=
          avoidsParent_of_good hpi (hg e (by simp)) (hsome e (by simp))
        have hkeep : getStep (triggerStep fuel db e now) x = getStep db x :=
          triggerStep_keeps fuel db e now x hu hex hpi hav
        have h1 : stepsEvolve db (triggerStep fuel db e now) :=
          triggerStep_evolve fuel db e now hu (hg e (by simp))
        have hu' := uniqueIds_evolve (stepsEvolve_static h1) hu
        rw [ihl _ x hu' (partnerInert_evolve h1 hkeep hpi)
          (fun e' he' => goodTarget_evolve h1 (hg e' (by simp [he'])))
          (fun e' he' => isSome_evolve h1 (hsome e' (by simp [he'])))
          (fun e' he' hx => hblock e' (by simp [he']) hx)]
        exact hkeep
      · rw [if_neg hc]
        exact ihl db x hu hpi (fun e' he' => hg e' (by simp [he']))
          (fun e' he' => hsome e' (by simp [he']))
          (fun e' he' hx => hblock e' (by simp [he']) hx)

/-! Lemmas about the dependency loop (`depLoop`). -/

theorem depLoop_evolve (fuel now : Nat) :
    ∀ (l : List ReleaseStep) (db : DB), uniqueIds db →
      (∀ e ∈ l, goodTarget db e.id) → stepsEvolve db (depLoop fuel now db l) := by
  intro l
  induction l with
  | nil => intro db _ _; exact stepsEvolve_refl db
  | cons e l ihl =>
    intro db hu hg
    rw [depLoop]
    by_cases hc : depEligible db e
    · rw [if_pos hc]
      have h1 : stepsEvolve db (triggerStep fuel db e now) :=
        triggerStep_evolve fuel db e now hu (hg e (by simp))
      refine stepsEvolve_trans h1 (ihl _ ?_ ?_)
      · exact uniqueIds_evolve (stepsEvolve_static h1) hu
      · intro e' he'; exact goodTarget_evolve h1 (hg e' (by simp [he']))
    · rw [if_neg hc]
      exact ihl db hu (fun e' he' => hg e' (by simp [he']))

theorem depLoop_hit (fuel now : Nat) :
    ∀ (l : List ReleaseStep) (db : DB) (s : ReleaseStep), uniqueIds db →
      (∀ e ∈ l, goodTarget db e.id) → (∀ e ∈ l, (getStep db e.id).isSome) →
      1 ≤ fuel → s ∈ l →
      (∀ db', stepsEvolve db db' → depEligible db' s = true) →
      statusOf (depLoop fuel now db l) s.id = some StepStatus.started := by
  intro l
  induction l with
  | nil => intro db s _ _ _ _ hs; intro _; cases hs
  | cons e l ihl =>
    intro db s hu hg hsome hf hs hguard
    rw [depLoop]
    rcases List.mem_cons.mp hs with rfl | hsl
    · rw [if_pos (hguard db (stepsEvolve_refl db))]
      have hst := triggerStep_starts fuel db s now hu hf (hsome s (by simp))
      have h1 : stepsEvolve db (triggerStep fuel db s now) :=
        triggerStep_evolve fuel db s now hu (hg s (by simp))
      have hu' := uniqueIds_evolve (stepsEvolve_static h1) hu
      exact statusOf_frozen
        (depLoop_evolve fuel now l _ hu'
          (fun e' he' => goodTarget_evolve h1 (hg e' (by simp [he'])))) hst (by simp)
    · by_cases hc : depEligible db e
      · rw [if_pos hc]
        have h1 : stepsEvolve db (triggerStep fuel db e now) :=
          triggerStep_evolve fuel db e now hu (hg e (by simp))
        have hu' := uniqueIds_evolve (stepsEvolve_static h1) hu
        exact ihl _ s hu'
          (fun e' he' => goodTarget_evolve h1 (hg e' (by simp [he'])))
          (fun e' he' => isSome_evolve h1 (hsome e' (by simp [he']))) hf hsl
          (fun db' hev => hguard db' (stepsEvolve_trans h1 hev))
      · rw [if_neg hc]
        exact ihl db s hu (fun e' he' => hg e' (by simp [he']))
          (fun e' he' => hsome e' (by simp [he'])) hf hsl hguard

theorem depLoop_keeps (fuel now : Nat) :
    ∀ (l : List ReleaseStep) (db : DB) (x : Nat), uniqueIds db → partnerInert db x →
      (∀ e ∈ l, goodTarget db e.id) → (∀ e ∈ l, (getStep db e.id).isSome) →
      (∀ e ∈ l, e.id = x → ∀ db', stepsEvolve db db' → depEligible db' e = false) →
      getStep (depLoop fuel now db l) x = getStep db x := by
  intro l
  induction l with
  | nil => intro db x _ _ _ _ _; rfl
  | cons e l ihl =>
    intro db x hu hpi hg hsome hblock
    rw [depLoop]
    by_cases hex : e.id = x
    · rw [if_neg (by rw [hblock e (by simp) hex db (stepsEvolve_refl db)]; simp)]
      exact ihl db x hu hpi (fun e' he' => hg e' (by simp [he']))
        (fun e' he' => hsome e' (by simp [he']))
        (fun e' he' hx => hblock e' (by simp [he']) hx)
    · by_cases hc : depEligible db e
      · rw [if_pos hc]
        have hav : avoidsParent db x e.id :=
          avoidsParent_of_good hpi (hg e (by simp)) (hsome e (by simp))
        have hkeep : getStep (triggerStep fuel db e now) x = getStep db x :=
          triggerStep_keeps fuel db e now x hu hex hpi hav
        have h1 : stepsEvolve db (triggerStep fuel db e now) :=
          triggerStep_evolve fuel db e now hu (hg e (by simp))
        have hu' := uniqueIds_evolve (stepsEvolve_static h1) hu
        rw [ihl _ x hu' (partnerInert_evolve h1 hkeep hpi)
          (fun e' he' => goodTarget_evolve h1 (hg e' (by simp [he'])))
          (fun e' he' => isSome_evolve h1 (hsome e' (by simp [he'])))
          (fun e' he' hx db' hev =>
            hblock e' (by simp [he']) hx db' (stepsEvolve_trans h1 hev))]
        exact hkeep
      · rw [if_neg hc]
        exact ihl db x hu hpi (fun e' he' => hg e' (by simp [he']))
          (fun e' he' => hsome e' (by simp [he']))
          (fun e' he' hx => hblock e' (by simp [he']) hx)

theorem snapshotNS_good {db : DB} (hu : uniqueIds db) :
    ∀ e ∈ getStepsByStatus db StepStatus.not_started, goodTarget db e.id := by
  intro e he
  rw [mem_getStepsByStatus] at he
  exact goodTarget_of_ns hu he.1 (Or.inl he.2)

theorem snapshotNS_some {db : DB} (hu : uniqueIds db) :
    ∀ e ∈ getStepsByStatus db StepStatus.not_started, (getStep db e.id).isSome := by
  intro e he
  rw [mem_getStepsByStatus] at he
  rw [getStep_of_mem hu he.1]
  rfl

/-- C4: during dependency evaluation over the `not_started` snapshot, an
`after_step` step is triggered exactly when its `dependsOnStepId` step currently has
status `completed` — a merely `started` (or absent, or otherwise incomplete)
dependency leaves it `not_started` — and a `simultaneous` step is triggered exactly
when its `simultaneousWithStepId` step currently has status `started` — a partner
that is neither `started` nor able to become started (`in_progress`, `completed`,
`failed`, or absent) leaves it `not_started`. -/
theorem C4_dependency_evaluation_guards (fuel now : Nat) (db : DB) (s : ReleaseStep)
    (hu : uniqueIds db) (hf : 1 ≤ fuel) (hs : s ∈ db.steps)
    (hns : s.status = StepStatus.not_started) :
    (∀ d dep, s.schedulingType = SchedulingType.after_step →
      s.dependsOnStepId = some d → getStep db d = some dep →
      dep.status = StepStatus.completed →
      statusOf (checkDependentSteps fuel db now) s.id = some StepStatus.started) ∧
    (∀ d, s.schedulingType = SchedulingType.after_step →
      s.dependsOnStepId = some d →
      (∀ dep, getStep db d = some dep → ¬ dep.status = StepStatus.completed) →
      statusOf (checkDependentSteps fuel db now) s.id = some StepStatus.not_started) ∧
    (∀ m p, s.schedulingType = SchedulingType.simultaneous →
      s.simultaneousWithStepId = some m → getStep db m = some p →
      p.status = StepStatus.started →
      statusOf (checkDependentSteps fuel db now) s.id = some StepStatus.started) ∧
    (∀ m, s.schedulingType = SchedulingType.simultaneous →
      s.simultaneousWithStepId = some m →
      (∀ p, getStep db m = some p →
        ¬ p.status = StepStatus.not_started ∧ ¬ p.status = StepStatus.started) →
      statusOf (checkDependentSteps fuel db now) s.id = some StepStatus.not_started) := by
  have hmem : s ∈ getStepsByStatus db StepStatus.not_started := by
    rw [mem_getStepsByStatus]; exact ⟨hs, hns⟩
  refine ⟨?_, ?_, ?_, ?_⟩
  · intro d dep hty hdep hgd hdepc
    refine depLoop_hit fuel now _ db s hu (snapshotNS_good hu) (snapshotNS_some hu)
      hf hmem ?_
    intro db' hev
    obtain ⟨dep', hgd', hr⟩ := getStep_stepsEvolve hev d hgd
    have hc' : dep'.status = StepStatus.completed := by
      rcases hr.2 with he | ⟨hc, _⟩
      · rw [he, hdepc]
      · rw [hdepc] at hc; cases hc
    simp [depEligible, hty, hdep, hgd', hc']
  · intro d hty hdep hne
    have hkeep : getStep (checkDependentSteps fuel db now) s.id = getStep db s.id := by
      refine depLoop_keeps fuel now _ db s.id hu ?_ (snapshotNS_good hu)
        (snapshotNS_some hu) ?_
      · intro a hga hsim _ _ _
        have : a = s := (Option.some.inj ((getStep_of_mem hu hs).symm.trans hga)).symm
        rw [this, hty] at hsim
        cases hsim
      · intro e he hex db' hev
        rw [mem_getStepsByStatus] at he
        have hes : e = s := id_inj_of_nodup hu he.1 hs hex
        rw [hes]
        cases hgd : getStep db d with
        | none =>
          have h0 := getStep_none_staticEvolve (stepsEvolve_static hev) d hgd
          simp [depEligible, hty, hdep, h0]
        | some dep =>
          obtain ⟨dep', hgd', hr⟩ := getStep_stepsEvolve hev d hgd
          have hnc : ¬ dep'.status = StepStatus.completed := by
            rcases hr.2 with he' | ⟨_, he'⟩
            · rw [he']; exact hne dep hgd
            · rw [he']; intro hx; cases hx
          simp [depEligible, hty, hdep, hgd', hnc]
    unfold statusOf
    rw [hkeep, getStep_of_mem hu hs]
    simp [hns]
  · intro m p hty hwid hgm hps
    refine depLoop_hit fuel now _ db s hu (snapshotNS_good hu) (snapshotNS_some hu)
      hf hmem ?_
    intro db' hev
    obtain ⟨p', hgm', hr⟩ := getStep_stepsEvolve hev m hgm
    have hp' : p'.status = StepStatus.started := by
      rcases hr.2 with he | ⟨_, he⟩
      · rw [he, hps]
      · exact he
    have htyne : ¬ s.schedulingType = SchedulingType.after_step := by
      rw [hty]; intro hx; cases hx
    simp [depEligible, htyne, hty, hwid, hgm', hp']
  · intro m hty hwid hinert
    have hkeep : getStep (checkDependentSteps fuel db now) s.id = getStep db s.id := by
      refine depLoop_keeps fuel now _ db s.id hu ?_ (snapshotNS_good hu)
        (snapshotNS_some hu) ?_
      · intro a hga _ _ m' hm' b hgb
        have haa : s = a := Option.some.inj ((getStep_of_mem hu hs).symm.trans hga)
        rw [← haa] at hm'
        rw [hwid] at hm'
        have hmm : m = m' := Option.some.inj hm'
        rw [← hmm] at hgb
        exact hinert b hgb
      · intro e he hex db' hev
        rw [mem_getStepsByStatus] at he
        have hes : e = s := id_inj_of_nodup hu he.1 hs hex
        rw [hes]
        have htyne : ¬ s.schedulingType = SchedulingType.after_step := by
          rw [hty]; intro hx; cases hx
        cases hgm : getStep db m with
        | none =>
          have h0 := getStep_none_staticEvolve (stepsEvolve_static hev) m hgm
          simp [depEligible, htyne, hty, hwid, h0]
        | some p =>
          obtain ⟨p', hgm', hr⟩ := getStep_stepsEvolve hev m hgm
          have hnp : ¬ p'.status = StepStatus.started := by
            rcases hr.2 with he' | ⟨hpns, _⟩
            · rw [he']; exact (hinert p hgm).2
            · exact absurd hpns (hinert p hgm).1
          simp [depEligible, htyne, hty, hwid, hgm', hnp]
    unfold statusOf
    rw [hkeep, getStep_of_mem hu hs]
    simp [hns]

theorem snapshotFT_good {db : DB} (hu : uniqueIds db) :
    ∀ e ∈ getStepsForScheduling db, goodTarget db e.id := by
  intro e he
  rw [mem_getStepsForScheduling] at he
  exact goodTarget_of_ns hu he.1 (Or.inl he.2.2)

theorem snapshotFT_some {db : DB} (hu : uniqueIds db) :
    ∀ e ∈ getStepsForScheduling db, (getStep db e.id).isSome := by
  intro e he
  rw [mem_getStepsForScheduling] at he
  rw [getStep_of_mem hu he.1]
  rfl

theorem checkScheduledSteps_evolve (fuel : Nat) (db : DB) (now : Nat)
    (hu : uniqueIds db) : stepsEvolve db (checkScheduledSteps fuel db now) :=
  schedLoop_evolve fuel now _ db hu (snapshotFT_good hu)

theorem checkDependentSteps_evolve (fuel : Nat) (db : DB) (now : Nat)
    (hu : uniqueIds db) : stepsEvolve db (checkDependentSteps fuel db now) :=
  depLoop_evolve fuel now _ db hu (snapshotNS_good hu)

theorem schedulerTick_evolve (fuel : Nat) (db : DB) (now : Nat)
    (hu : uniqueIds db) : stepsEvolve db (schedulerTick fuel db now) := by
  have h1 := checkScheduledSteps_evolve fuel db now hu
  exact stepsEvolve_trans h1
    (checkDependentSteps_evolve fuel _ now (uniqueIds_evolve (stepsEvolve_static h1) hu))

/-- A `fixed_time` step whose time guard is not satisfied at this tick is left
completely unchanged by the whole tick. -/
theorem schedulerTick_keeps_fixed (fuel now : Nat) (db : DB) (s : ReleaseStep)
    (hu : uniqueIds db) (hs : s ∈ db.steps)
    (hty : s.schedulingType = SchedulingType.fixed_time)
    (hel : schedEligible s now = false) :
    getStep (schedulerTick fuel db now) s.id = some s := by
  have hginit : getStep db s.id = some s := getStep_of_mem hu hs
  have hpi : partnerInert db s.id := by
    intro a hga hsim _ _ _ _ _
    have : s = a := Option.some.inj (hginit.symm.trans hga)
    rw [← this, hty] at hsim
    cases hsim
  have h1 : getStep (checkScheduledSteps fuel db now) s.id = getStep db s.id := by
    refine schedLoop_keeps fuel now _ db s.id hu hpi (snapshotFT_good hu)
      (snapshotFT_some hu) ?_
    intro e he hex
    rw [mem_getStepsForScheduling] at he
    rw [id_inj_of_nodup hu he.1 hs hex]
    exact hel
  have hev1 := checkScheduledSteps_evolve fuel db now hu
  have hu1 := uniqueIds_evolve (stepsEvolve_static hev1) hu
  have hg1 : getStep (checkScheduledSteps fuel db now) s.id = some s :=
    h1.trans hginit
  have hpi1 : partnerInert (checkScheduledSteps fuel db now) s.id := by
    intro a hga hsim _ _ _ _ _
    have : s = a := Option.some.inj (hg1.symm.trans hga)
    rw [← this, hty] at hsim
    cases hsim
  have h2 : getStep (checkDependentSteps fuel (checkScheduledSteps fuel db now) now) s.id
      = getStep (checkScheduledSteps fuel db now) s.id := by
    refine depLoop_keeps fuel now _ _ s.id hu1 hpi1 (snapshotNS_good hu1)
      (snapshotNS_some hu1) ?_
    intro e he hex db' _
    rw [mem_getStepsByStatus] at he
    have hee : getStep (checkScheduledSteps fuel db now) s.id = some e := by
      rw [← hex]; exact getStep_of_mem hu1 he.1
    have hes : e = s := Option.some.inj (hee.symm.trans hg1)
    rw [hes]
    simp [depEligible, hty]
  show getStep (checkDependentSteps fuel (checkScheduledSteps fuel db now) now) s.id = some s
  rw [h2, hg1]

/-- C5: on a poll tick, a `fixed_time` `not_started` step with `scheduledTime = t` is
triggered on that tick exactly when `t ≤ now`; otherwise the step — its whole stored
row — is unchanged and the next tick re-evaluates it. -/
theorem C5_fixed_time_tick (fuel now t : Nat) (db : DB) (s : ReleaseStep)
    (hu : uniqueIds db) (hf : 1 ≤ fuel) (hs : s ∈ db.steps)
    (hty : s.schedulingType = SchedulingType.fixed_time)
    (hns : s.status = StepStatus.not_started)
    (htime : s.scheduledTime = some t) :
    (t ≤ now → statusOf (schedulerTick fuel db now) s.id = some StepStatus.started) ∧
    (now < t → getStep (schedulerTick fuel db now) s.id = some s) := by
  constructor
  · intro hle
    have hmem : s ∈ getStepsForScheduling db := by
      rw [mem_getStepsForScheduling]; exact ⟨hs, hty, hns⟩
    have h1 : statusOf (checkScheduledSteps fuel db now) s.id =
        some StepStatus.started := by
      refine schedLoop_hit fuel now _ db s hu (snapshotFT_good hu)
        (snapshotFT_some hu) hf hmem ?_
      simp [schedEligible, htime, hle]
    have hev1 := checkScheduledSteps_evolve fuel db now hu
    have hu1 := uniqueIds_evolve (stepsEvolve_static hev1) hu
    exact statusOf_frozen (checkDependentSteps_evolve fuel _ now hu1) h1 (by simp)
  · intro hlt
    refine schedulerTick_keeps_fixed fuel now db s hu hs hty ?_
    simp [schedEligible, htime]
    omega

/-- Witness for C5 at a concrete database: the due fixed-time step is triggered on
the tick. -/
theorem C5_fixed_time_tick_witness :
    uniqueIds exDbFixed ∧ exFixedDue ∈ exDbFixed.steps ∧
    exFixedDue.schedulingType = SchedulingType.fixed_time ∧
    exFixedDue.scheduledTime = some 0 ∧ (0 : Nat) ≤ 10 ∧
    statusOf (schedulerTick 1 exDbFixed 10) exFixedDue.id = some StepStatus.started :=
  ⟨by decide, by decide, by decide, by decide, by decide,
   (C5_fixed_time_tick 1 10 0 exDbFixed exFixedDue (by decide) (by decide) (by decide)
     (by decide) (by decide) (by decide)).1 (by decide)⟩

/-- Unconditional static evolution: no scheduler trigger ever changes a step's id,
plan, scheduling configuration or completion timestamp. -/
theorem triggerStep_staticEvolve :
    ∀ (fuel : Nat) (db : DB) (s : ReleaseStep) (now : Nat),
      staticEvolve db (triggerStep fuel db s now) := by
  intro fuel
  induction fuel with
  | zero => intro db s now; exact staticEvolve_refl db
  | succ f ih =>
    intro db s now
    rw [triggerStep_succ]
    have hw : staticEvolve db (trigWrite db s now) := writeStep_static db.steps s.id now
    exact staticEvolve_trans hw
      (foldl_keeps staticEvolve_refl (fun _ _ _ => staticEvolve_trans)
        (fun d t => ih d t now) _ _)

theorem schedLoop_staticEvolve (fuel now : Nat) :
    ∀ (l : List ReleaseStep) (db : DB), staticEvolve db (schedLoop fuel now db l) := by
  intro l
  induction l with
  | nil => intro db; exact staticEvolve_refl db
  | cons e l ihl =>
    intro db
    rw [schedLoop]
    by_cases hc : schedEligible e now
    · rw [if_pos hc]
      exact staticEvolve_trans (triggerStep_staticEvolve fuel db e now) (ihl _)
    · rw [if_neg hc]
      exact ihl db

theorem depLoop_staticEvolve (fuel now : Nat) :
    ∀ (l : List ReleaseStep) (db : DB), staticEvolve db (depLoop fuel now db l) := by
  intro l
  induction l with
  | nil => intro db; exact staticEvolve_refl db
  | cons e l ihl =>
    intro db
    rw [depLoop]
    by_cases hc : depEligible db e
    · rw [if_pos hc]
      exact staticEvolve_trans (triggerStep_staticEvolve fuel db e now) (ihl _)
    · rw [if_neg hc]
      exact ihl db

theorem schedulerTick_staticEvolve (fuel : Nat) (db : DB) (now : Nat) :
    staticEvolve db (schedulerTick fuel db now) :=
  staticEvolve_trans (schedLoop_staticEvolve fuel now _ db)
    (depLoop_staticEvolve fuel now _ _)

theorem runTicks_staticEvolve (fuel : Nat) :
    ∀ (times : List Nat) (db : DB), staticEvolve db (runTicks fuel db times) :=
  fun times db => foldl_keeps staticEvolve_refl (fun _ _ _ => staticEvolve_trans)
    (fun d t => schedulerTick_staticEvolve fuel d t) times db

theorem schedLoop_plansKept (fuel now : Nat) :
    ∀ (l : List ReleaseStep) (db : DB), plansKept db (schedLoop fuel now db l) := by
  intro l
  induction l with
  | nil => intro db; exact plansKept_refl db
  | cons e l ihl =>
    intro db
    rw [schedLoop]
    by_cases hc : schedEligible e now
    · rw [if_pos hc]
      exact plansKept_trans (triggerStep_plansKept fuel db e now) (ihl _)
    · rw [if_neg hc]
      exact ihl db

theorem depLoop_plansKept (fuel now : Nat) :
    ∀ (l : List ReleaseStep) (db : DB), plansKept db (depLoop fuel now db l) := by
  intro l
  induction l with
  | nil => intro db; exact plansKept_refl db
  | cons e l ihl =>
    intro db
    rw [depLoop]
    by_cases hc : depEligible db e
    · rw [if_pos hc]
      exact plansKept_trans (triggerStep_plansKept fuel db e now) (ihl _)
    · rw [if_neg hc]
      exact ihl db

theorem schedulerTick_plansKept (fuel : Nat) (db : DB) (now : Nat) :
    plansKept db (schedulerTick fuel db now) :=
  plansKept_trans (schedLoop_plansKept fuel now _ db) (depLoop_plansKept fuel now _ _)

theorem runTicks_plansKept (fuel : Nat) (times : List Nat) (db : DB) :
    plansKept db (runTicks fuel db times) :=
  foldl_keeps plansKept_refl (fun _ _ _ => plansKept_trans)
    (fun d t => schedulerTick_plansKept fuel d t) times db

/-- An empty plan stays empty under static evolution. -/
theorem stepsOfPlan_empty_evolve {db db' : DB} (h : staticEvolve db db') {pid : Nat}
    (h0 : getStepsByReleasePlan db pid = []) : getStepsByReleasePlan db' pid = [] := by
  have hall : ∀ e ∈ db.steps, ¬ e.releasePlanId = pid := by
    intro e he hp
    have : e ∈ getStepsByReleasePlan db pid := by
      rw [mem_getStepsByReleasePlan]; exact ⟨he, hp⟩
    rw [h0] at this
    cases this
  rcases List.eq_nil_or_concat (getStepsByReleasePlan db' pid) with he | ⟨l, e, he⟩
  · exact he
  · exfalso
    have hmem : e ∈ getStepsByReleasePlan db' pid := by rw [he]; simp
    rw [mem_getStepsByReleasePlan] at hmem
    obtain ⟨a, ha, hr⟩ := forall2_mem_right h e hmem.1
    exact hall a ha (by rw [← hr.2.1]; exact hmem.2)

/-- Witness for C4 at a concrete database: the `after_step` step whose dependency is
completed is triggered by the dependency pass. -/
theorem C4_dependency_evaluation_guards_witness :
    uniqueIds exDbChain ∧ exB ∈ exDbChain.steps ∧
    exB.status = StepStatus.not_started ∧
    exB.schedulingType = SchedulingType.after_step ∧
    getStep exDbChain 0 = some exA ∧ exA.status = StepStatus.completed ∧
    statusOf (checkDependentSteps 1 exDbChain 9) exB.id = some StepStatus.started :=
  ⟨by decide, by decide, by decide, by decide, by decide, by decide,
   (C4_dependency_evaluation_guards 1 9 exDbChain exB (by decide) (by decide)
     (by decide) (by decide)).1 0 exA (by decide) (by decide) (by decide) (by decide)⟩

/-- C8 (amended): a `fixed_time`, `not_started` step with no `scheduledTime` IS
returned by the fixed-time query (which filters only on `schedulingType` and
`status`), but the per-step null guard of `checkScheduledSteps` skips it, so it is
never triggered and no error is raised: its whole stored row is unchanged after any
number of poll ticks — a permanently dormant step. -/
theorem C8_amended_timeless_step_dormant (fuel : Nat) (db : DB) (s : ReleaseStep)
    (times : List Nat) (hu : uniqueIds db) (hs : s ∈ db.steps)
    (hty : s.schedulingType = SchedulingType.fixed_time)
    (htime : s.scheduledTime = none) (hns : s.status = StepStatus.not_started) :
    s ∈ getStepsForScheduling db ∧ getStep (runTicks fuel db times) s.id = some s := by
  constructor
  · rw [mem_getStepsForScheduling]
    exact ⟨hs, hty, hns⟩
  · induction times generalizing db with
    | nil => exact getStep_of_mem hu hs
    | cons t ts ih =>
      show getStep (runTicks fuel (schedulerTick fuel db t) ts) s.id = some s
      have h1 : getStep (schedulerTick fuel db t) s.id = some s :=
        schedulerTick_keeps_fixed fuel t db s hu hs hty (by simp [schedEligible, htime])
      exact ih _ (uniqueIds_evolve (schedulerTick_staticEvolve fuel db t) hu)
        (getStep_some _ s.id h1).1

/-- Witness for C8's amended theorem: the timeless step of the concrete database is
still untouched after three ticks. -/
theorem C8_amended_timeless_step_dormant_witness :
    uniqueIds exDbNoTime ∧ exFixedNoTime ∈ exDbNoTime.steps ∧
    exFixedNoTime.scheduledTime = none ∧
    (exFixedNoTime ∈ getStepsForScheduling exDbNoTime ∧
     getStep (runTicks 3 exDbNoTime [1, 2, 3]) exFixedNoTime.id = some exFixedNoTime) :=
  ⟨by decide, by decide, by decide,
   C8_amended_timeless_step_dormant 3 exDbNoTime exFixedNoTime [1, 2, 3]
     (by decide) (by decide) (by decide) (by decide) (by decide)⟩

/-- C7: a plan with zero steps is never moved to `completed`: poll ticks do not touch
its status, the step set stays empty, and each completion-detection or
plan-derivation entry point is the identity on such a state. -/
theorem C7_zero_step_plan_never_completed (fuel : Nat) (db : DB) (pid : Nat)
    (times : List Nat) (h0 : getStepsByReleasePlan db pid = []) :
    planStatusOf (runTicks fuel db times) pid = planStatusOf db pid ∧
    getStepsByReleasePlan (runTicks fuel db times) pid = [] ∧
    updateReleasePlanStatus (runTicks fuel db times) pid = runTicks fuel db times ∧
    checkReleaseCompletion (runTicks fuel db times) pid = runTicks fuel db times ∧
    checkAndNotifyReleaseCompletion (runTicks fuel db times) pid
      = runTicks fuel db times := by
  have hpk := runTicks_plansKept fuel times db
  have h0' : getStepsByReleasePlan (runTicks fuel db times) pid = [] :=
    stepsOfPlan_empty_evolve (runTicks_staticEvolve fuel times db) h0
  refine ⟨?_, h0', ?_, ?_, ?_⟩
  · unfold planStatusOf getReleasePlan
    rw [hpk.1]
  · simp [updateReleasePlanStatus, h0']
  · simp [checkReleaseCompletion, h0']
  · unfold checkAndNotifyReleaseCompletion
    cases getReleasePlan (runTicks fuel db times) pid with
    | none => rfl
    | some p => simp [h0']

/-- Witness for C7: a plan with no steps, polled twice. -/
theorem C7_zero_step_plan_never_completed_witness :
    getStepsByReleasePlan exDbNoTime 5 = [] ∧
    planStatusOf (runTicks 2 exDbNoTime [0, 1]) 5 = planStatusOf exDbNoTime 5 ∧
    checkReleaseCompletion (runTicks 2 exDbNoTime [0, 1]) 5
      = runTicks 2 exDbNoTime [0, 1] :=
  ⟨by decide,
   (C7_zero_step_plan_never_completed 2 exDbNoTime 5 [0, 1] (by decide)).1,
   (C7_zero_step_plan_never_completed 2 exDbNoTime 5 [0, 1] (by decide)).2.2.2.1⟩

/-! Facts about the plans table and the plan-status operations. -/

/-- An id lookup over the plans table commutes with an id-preserving rewrite. -/
theorem planFind_map_id {g : ReleasePlan → ReleasePlan} (hid : ∀ p, (g p).id = p.id) :
    ∀ (l : List ReleasePlan) (x : Nat),
      (l.map g).find? (fun p => decide (p.id = x)) =
        (l.find? (fun p => decide (p.id = x))).map g := by
  intro l x
  induction l with
  | nil => rfl
  | cons a l ih =>
    rw [List.map_cons]
    by_cases hax : a.id = x
    · rw [List.find?_cons_of_pos _ (by rw [hid a]; simp [hax]),
          List.find?_cons_of_pos _ (by simp [hax])]
      rfl
    · rw [List.find?_cons_of_neg _ (by rw [hid a]; simp [hax]),
          List.find?_cons_of_neg _ (by simp [hax])]
      exact ih

theorem getReleasePlan_write_self {db : DB} {pid : Nat} {p : ReleasePlan}
    (hp : getReleasePlan db pid = some p) (st : PlanStatus) :
    getReleasePlan (writePlanStatus db pid st) pid = some { p with status := st } := by
  show (db.plans.map (fun r => if r.id = pid then { r with status := st } else r)).find?
      (fun q => decide (q.id = pid)) = some { p with status := st }
  rw [planFind_map_id (fun q => by by_cases h : q.id = pid <;> simp [h]) db.plans pid]
  rw [show db.plans.find? (fun q => decide (q.id = pid)) = some p from hp]
  have hpid : p.id = pid := by simpa using List.find?_some hp
  simp [hpid]

theorem getReleasePlan_write_ne {db : DB} {pid q : Nat} (hne : ¬ pid = q)
    (st : PlanStatus) :
    getReleasePlan (writePlanStatus db pid st) q = getReleasePlan db q := by
  show (db.plans.map (fun r => if r.id = pid then { r with status := st } else r)).find?
      (fun r => decide (r.id = q)) = db.plans.find? (fun r => decide (r.id = q))
  rw [planFind_map_id (fun r => by by_cases h : r.id = pid <;> simp [h]) db.plans q]
  cases hf : db.plans.find? (fun r => decide (r.id = q)) with
  | none => rfl
  | some p =>
    have hpq : p.id = q := by simpa using List.find?_some hf
    have : ¬ p.id = pid := fun he => hne (he.symm.trans hpq)
    simp [this]

theorem planStatusOf_write {db : DB} {pid : Nat} {p : ReleasePlan}
    (hp : getReleasePlan db pid = some p) (st : PlanStatus) :
    planStatusOf (writePlanStatus db pid st) pid = some st := by
  unfold planStatusOf
  rw [getReleasePlan_write_self hp st]
  rfl

theorem writePlanStatus_steps (db : DB) (pid : Nat) (st : PlanStatus) :
    (writePlanStatus db pid st).steps = db.steps := rfl

theorem updateReleasePlanStatus_steps (db : DB) (pid : Nat) :
    (updateReleasePlanStatus db pid).steps = db.steps := by
  unfold updateReleasePlanStatus
  by_cases h : (getStepsByReleasePlan db pid).isEmpty <;> simp [h, writePlanStatus]

theorem checkAndNotifyReleaseCompletion_steps (db : DB) (pid : Nat) :
    (checkAndNotifyReleaseCompletion db pid).steps = db.steps := by
  unfold checkAndNotifyReleaseCompletion
  cases getReleasePlan db pid with
  | none => rfl
  | some p =>
    by_cases h0 : (getStepsByReleasePlan db pid).isEmpty
    · simp [h0]
    · by_cases hall : (getStepsByReleasePlan db pid).all
        (fun s => decide (s.status = StepStatus.completed))
      · simp [h0, hall, writePlanStatus]
      · simp [h0, hall]

/-- Modelled on the specification's derivation clause, for the refinement
comparison: `completed` if every step is completed, else `active` if any step is
started, in progress or completed, else `planning`. -/
def specDerivedPlanStatus (steps : List ReleaseStep) : PlanStatus :=
  if steps.all (fun s => decide (s.status = StepStatus.completed)) then
    PlanStatus.completed
  else if steps.any (fun s =>
      decide (s.status = StepStatus.started ∨ s.status = StepStatus.in_progress ∨
              s.status = StepStatus.completed)) then
    PlanStatus.active
  else PlanStatus.planning

/-- For a plan with at least one step, `updateReleasePlanStatus` writes exactly the
status derived by the specification's formula. -/
theorem updateReleasePlanStatus_derives {db : DB} {pid : Nat} {p : ReleasePlan}
    (hp : getReleasePlan db pid = some p)
    (hne : ¬ (getStepsByReleasePlan db pid).isEmpty) :
    planStatusOf (updateReleasePlanStatus db pid) pid =
      some (specDerivedPlanStatus (getStepsByReleasePlan db pid)) := by
  unfold updateReleasePlanStatus
  rw [if_neg hne]
  rw [planStatusOf_write hp]
  unfold specDerivedPlanStatus
  by_cases hall : (getStepsByReleasePlan db pid).all
      (fun s => decide (s.status = StepStatus.completed))
  · simp [hall]
  · by_cases hany : (getStepsByReleasePlan db pid).any (fun s =>
        decide (s.status = StepStatus.started ∨ s.status = StepStatus.in_progress ∨
                s.status = StepStatus.completed)) <;>
      simp [hall, hany]

/-- Effect of the completion check on the plan status: it writes `completed` when all
steps are completed and leaves the status alone otherwise. -/
theorem checkAndNotify_planStatus {db : DB} {pid : Nat} {p : ReleasePlan}
    (hp : getReleasePlan db pid = some p)
    (hne : ¬ (getStepsByReleasePlan db pid).isEmpty) :
    planStatusOf (checkAndNotifyReleaseCompletion db pid) pid =
      if (getStepsByReleasePlan db pid).all
          (fun s => decide (s.status = StepStatus.completed))
      then some PlanStatus.completed else some p.status := by
  unfold checkAndNotifyReleaseCompletion
  rw [hp]
  rw [if_neg hne]
  by_cases hall : (getStepsByReleasePlan db pid).all
      (fun s => decide (s.status = StepStatus.completed))
  · rw [if_pos hall, if_pos hall]
    exact planStatusOf_write (by exact hp) PlanStatus.completed
  · rw [if_neg hall, if_neg hall]
    unfold planStatusOf
    rw [hp]
    rfl

theorem manualTrigger_success_eq {db : DB} {stepId userId now : Nat}
    {step : ReleaseStep} (hget : getStep db stepId = some step)
    (hns : step.status = StepStatus.not_started) :
    manualTriggerStep db stepId userId now =
      (checkAndNotifyReleaseCompletion
        (updateReleasePlanStatus (manualWrite db stepId userId now step)
          step.releasePlanId)
        step.releasePlanId, 200) := by
  unfold manualTriggerStep
  rw [hget]
  dsimp only
  rw [if_neg (by simp [hns])]

theorem updateReleasePlanStatus_eq_write {db : DB} {pid : Nat}
    (hne : ¬ (getStepsByReleasePlan db pid).isEmpty) :
    updateReleasePlanStatus db pid =
      writePlanStatus db pid (specDerivedPlanStatus (getStepsByReleasePlan db pid)) := by
  simp only [updateReleasePlanStatus, specDerivedPlanStatus]
  rw [if_neg hne]

theorem getStepsByReleasePlan_congr {db1 db2 : DB} (h : db1.steps = db2.steps)
    (pid : Nat) : getStepsByReleasePlan db1 pid = getStepsByReleasePlan db2 pid := by
  unfold getStepsByReleasePlan
  rw [h]

/-- The status-started write keeps the written step inside its plan. -/
theorem writeStep_mem_plan {db : DB} {stepId : Nat} {step : ReleaseStep}
    (hget : getStep db stepId = some step) (now : Nat) :
    { step with status := StepStatus.started, startedAt := some now }
      ∈ writeStepStarted db.steps stepId now := by
  obtain ⟨hmem, hid⟩ := getStep_some db stepId hget
  unfold writeStepStarted
  have : { step with status := StepStatus.started, startedAt := some now } =
      (fun s => if s.id = stepId
        then { s with status := StepStatus.started, startedAt := some now } else s)
        step := by
    simp [hid]
  rw [this]
  exact List.mem_map_of_mem _ hmem

/-- Shared tail of both HTTP routes: deriving the plan status and then running the
completion check leaves the plan carrying exactly the derived status of its (final)
step set. -/
theorem derive_then_notify {db : DB} {pid : Nat} {p : ReleasePlan}
    (hp : getReleasePlan db pid = some p)
    (hne : ¬ (getStepsByReleasePlan db pid).isEmpty) :
    planStatusOf (checkAndNotifyReleaseCompletion (updateReleasePlanStatus db pid) pid)
        pid =
      some (specDerivedPlanStatus (getStepsByReleasePlan
        (checkAndNotifyReleaseCompletion (updateReleasePlanStatus db pid) pid) pid)) := by
  have hpU : getReleasePlan (updateReleasePlanStatus db pid) pid =
      some { p with
        status := specDerivedPlanStatus (getStepsByReleasePlan db pid) } := by
    rw [updateReleasePlanStatus_eq_write hne]
    exact getReleasePlan_write_self hp _
  have hfilU : getStepsByReleasePlan (updateReleasePlanStatus db pid) pid =
      getStepsByReleasePlan db pid :=
    getStepsByReleasePlan_congr (updateReleasePlanStatus_steps db pid) pid
  have hneU : ¬ (getStepsByReleasePlan (updateReleasePlanStatus db pid) pid).isEmpty := by
    rw [hfilU]; exact hne
  have hfin := checkAndNotify_planStatus hpU hneU
  have hfilF : getStepsByReleasePlan
      (checkAndNotifyReleaseCompletion (updateReleasePlanStatus db pid) pid) pid =
      getStepsByReleasePlan db pid :=
    (getStepsByReleasePlan_congr
      (checkAndNotifyReleaseCompletion_steps (updateReleasePlanStatus db pid) pid)
      pid).trans hfilU
  rw [hfilF, hfin, hfilU]
  by_cases hall : (getStepsByReleasePlan db pid).all
      (fun s => decide (s.status = StepStatus.completed))
  · rw [if_pos hall]
    simp [specDerivedPlanStatus, hall]
  · rw [if_neg hall]

/-- The manual-trigger route leaves every other step untouched (no cascade, no other
write): only the steps table entry of the triggered id can change. -/
theorem manualTrigger_frame (db : DB) (stepId userId now x : Nat) (hx : ¬ x = stepId) :
    getStep (manualTriggerStep db stepId userId now).1 x = getStep db x := by
  unfold manualTriggerStep
  cases hget : getStep db stepId with
  | none => rfl
  | some step =>
    dsimp only
    by_cases hst : step.status ≠ StepStatus.not_started
    · rw [if_pos hst]
    · rw [if_neg hst]
      show getStep (checkAndNotifyReleaseCompletion (updateReleasePlanStatus
        (manualWrite db stepId userId now step) step.releasePlanId)
        step.releasePlanId) x = getStep db x
      unfold getStep
      rw [checkAndNotifyReleaseCompletion_steps, updateReleasePlanStatus_steps]
      show (writeStepStarted db.steps stepId now).find? (fun s => decide (s.id = x)) = _
      exact find_writeStep_ne db.steps stepId now x (fun he => hx he.symm)

theorem not_isEmpty_of_mem {l : List ReleaseStep} {a : ReleaseStep} (h : a ∈ l) :
    ¬ l.isEmpty := by
  simp [List.isEmpty_iff]
  exact List.ne_nil_of_mem h

theorem patchTimestampBackfill_plans (db : DB) (stepId : Nat) (newStatus : StepStatus)
    (current : ReleaseStep) (now : Nat) :
    (patchTimestampBackfill db stepId newStatus current now).plans = db.plans := by
  unfold patchTimestampBackfill
  by_cases h1 : newStatus = StepStatus.started ∧ current.startedAt = none
  · rw [if_pos h1]
  · rw [if_neg h1]
    by_cases h2 : newStatus = StepStatus.completed ∧ current.completedAt = none
    · rw [if_pos h2]
    · rw [if_neg h2]

theorem patch_success_eq {db : DB} {stepId userId now : Nat} {newStatus : StepStatus}
    {current : ReleaseStep} (hget : getStep db stepId = some current)
    (hnee : ¬ newStatus = current.status) :
    patchStepStatus db stepId newStatus userId now =
      (checkAndNotifyReleaseCompletion
        (updateReleasePlanStatus
          (patchTimestampBackfill
            (addStepHistory (patchStatusWrite db stepId newStatus)
              { stepId := stepId, previousStatus := current.status,
                newStatus := newStatus, changedBy := Actor.user userId })
            stepId newStatus current now)
          current.releasePlanId)
        current.releasePlanId, 200) := by
  unfold patchStepStatus
  rw [hget]
  dsimp only
  rw [if_neg hnee]

/-- After the PATCH status write and its backfill, the updated step is still a member
of its plan's step set. -/
theorem patch_plan_nonempty {db : DB} {stepId userId now : Nat}
    {newStatus : StepStatus} {current : ReleaseStep}
    (hget : getStep db stepId = some current) :
    ¬ (getStepsByReleasePlan
        (patchTimestampBackfill
          (addStepHistory (patchStatusWrite db stepId newStatus)
            { stepId := stepId, previousStatus := current.status,
              newStatus := newStatus, changedBy := Actor.user userId })
          stepId newStatus current now)
        current.releasePlanId).isEmpty := by
  obtain ⟨hmem, hid⟩ := getStep_some db stepId hget
  have h1 : { current with status := newStatus } ∈
      (patchStatusWrite db stepId newStatus).steps := by
    show _ ∈ db.steps.map (fun s =>
      if s.id = stepId then { s with status := newStatus } else s)
    have : { current with status := newStatus } =
        (fun s => if s.id = stepId then { s with status := newStatus } else s)
          current := by simp [hid]
    rw [this]
    exact List.mem_map_of_mem _ hmem
  unfold patchTimestampBackfill
  by_cases hc1 : newStatus = StepStatus.started ∧ current.startedAt = none
  · rw [if_pos hc1]
    refine not_isEmpty_of_mem (a :=
      { current with status := newStatus, startedAt := some now }) ?_
    rw [mem_getStepsByReleasePlan]
    constructor
    · show _ ∈ (patchStatusWrite db stepId newStatus).steps.map _
      have : { current with status := newStatus, startedAt := some now } =
          (fun s => if s.id = stepId then { s with startedAt := some now } else s)
            { current with status := newStatus } := by simp [hid]
      rw [this]
      exact List.mem_map_of_mem _ h1
    · rfl
  · rw [if_neg hc1]
    by_cases hc2 : newStatus = StepStatus.completed ∧ current.completedAt = none
    · rw [if_pos hc2]
      refine not_isEmpty_of_mem (a :=
        { current with status := newStatus, completedAt := some now }) ?_
      rw [mem_getStepsByReleasePlan]
      constructor
      · show _ ∈ (patchStatusWrite db stepId newStatus).steps.map _
        have : { current with status := newStatus, completedAt := some now } =
            (fun s => if s.id = stepId then { s with completedAt := some now } else s)
              { current with status := newStatus } := by simp [hid]
        rw [this]
        exact List.mem_map_of_mem _ h1
      · rfl
    · rw [if_neg hc2]
      refine not_isEmpty_of_mem (a := { current with status := newStatus }) ?_
      rw [mem_getStepsByReleasePlan]
      exact ⟨h1, rfl⟩


/-! A protected-set frame property for `triggerStep`, used to prove that whole
simultaneous chains propagate within one cascade. -/

/-- A set of protected ids is cascade-closed when every protected id holds either a
step that is already `started` (such an id is never triggered again inside one
cascade tree) or a `not_started` `simultaneous` step whose cascade parent is itself
protected. -/
def cascadeClosed (db : DB) (S : Nat → Prop) : Prop :=
  ∀ y, S y → ∀ a, getStep db y = some a →
    a.status = StepStatus.started ∨
    (a.schedulingType = SchedulingType.simultaneous ∧
     a.status = StepStatus.not_started ∧
     ∀ m, a.simultaneousWithStepId = some m → S m)

theorem cascadeClosed_transport {db db' : DB} {S : Nat → Prop}
    (hkeep : ∀ y, S y → getStep db' y = getStep db y)
    (h : cascadeClosed db S) : cascadeClosed db' S := by
  intro y hy a hga
  rw [hkeep y hy] at hga
  exact h y hy a hga

/-- Protected-set frame lemma: a `triggerStep` call whose root id is unprotected
leaves every protected id completely untouched. -/
theorem triggerStep_keeps_set :
    ∀ (fuel : Nat) (db : DB) (t : ReleaseStep) (now : Nat) (S : Nat → Prop),
      uniqueIds db → ¬ S t.id → cascadeClosed db S →
      ∀ x, S x → getStep (triggerStep fuel db t now) x = getStep db x := by
  intro fuel
  induction fuel with
  | zero => intro db t now S _ _ _ x _; rfl
  | succ f ih =>
    have fold : ∀ (l : List ReleaseStep) (db : DB) (now : Nat) (S : Nat → Prop),
        uniqueIds db → cascadeClosed db S → (∀ e ∈ l, ¬ S e.id) →
        ∀ x, S x →
          getStep (l.foldl (fun d t => triggerStep f d t now) db) x = getStep db x := by
      intro l
      induction l with
      | nil => intro db now S _ _ _ x _; rfl
      | cons e l ihl =>
        intro db now S hu hcl hnS x hx
        rw [List.foldl_cons]
        have hkeep : ∀ y, S y → getStep (triggerStep f db e now) y = getStep db y :=
          fun y hy => ih db e now S hu (hnS e (by simp)) hcl y hy
        rw [ihl (triggerStep f db e now) now S
          (uniqueIds_evolve (triggerStep_staticEvolve f db e now) hu)
          (cascadeClosed_transport hkeep hcl)
          (fun e' he' => hnS e' (by simp [he'])) x hx]
        exact hkeep x hx
    intro db t now S hu hnt hcl x hx
    rw [triggerStep_succ]
    have hwS : ∀ y, S y → getStep (trigWrite db t now) y = getStep db y := by
      intro y hy
      exact find_writeStep_ne db.steps t.id now y (fun he => hnt (he ▸ hy))
    have huW : uniqueIds (trigWrite db t now) :=
      uniqueIds_evolve (writeStep_static db.steps t.id now) hu
    have hclW : cascadeClosed (trigWrite db t now) S := cascadeClosed_transport hwS hcl
    have hsnap : ∀ e ∈ simultaneousSnapshot (trigWrite db t now) t.id, ¬ S e.id := by
      intro e he hSe
      rw [mem_simultaneousSnapshot] at he
      have hge : getStep (trigWrite db t now) e.id = some e := getStep_of_mem huW he.1
      rcases hclW e.id hSe e hge with hst | ⟨_, _, hpar⟩
      · rw [he.2.1] at hst; cases hst
      · exact hnt (hpar t.id he.2.2.2)
    rw [fold _ _ now S huW hclW hsnap x hx]
    exact hwS x hx

/-- A simultaneous chain hanging off root id `r`: each element is the stored row for
its id, is a `not_started` `simultaneous` step, and its `simultaneousWithStepId`
points at the previous element of the chain (the first element points at `r`). -/
def chainLinked (db : DB) : Nat → List ReleaseStep → Prop
  | _, [] => True
  | r, c :: rest =>
      getStep db c.id = some c ∧
      c.schedulingType = SchedulingType.simultaneous ∧
      c.simultaneousWithStepId = some r ∧
      c.status = StepStatus.not_started ∧
      chainLinked db c.id rest

def chainLinkedDec (db : DB) : (r : Nat) → (l : List ReleaseStep) →
    Decidable (chainLinked db r l)
  | _, [] => Decidable.isTrue trivial
  | r, c :: rest => by
      unfold chainLinked
      letI := chainLinkedDec db c.id rest
      infer_instance

instance (db : DB) (r : Nat) (l : List ReleaseStep) : Decidable (chainLinked db r l) :=
  chainLinkedDec db r l

theorem chainLinked_elem {db : DB} :
    ∀ {r : Nat} {l : List ReleaseStep}, chainLinked db r l → ∀ x ∈ l,
      getStep db x.id = some x ∧ x.schedulingType = SchedulingType.simultaneous ∧
      x.status = StepStatus.not_started ∧
      ∃ m, x.simultaneousWithStepId = some m ∧
        (m = r ∨ m ∈ l.map (fun s => s.id)) := by
  intro r l
  induction l generalizing r with
  | nil => intro _ x hx; cases hx
  | cons c rest ih =>
    intro h x hx
    obtain ⟨hg, hsim, hw, hns, hrest⟩ := h
    rcases List.mem_cons.mp hx with hxc | hxr
    · subst hxc
      exact ⟨hg, hsim, hns, r, hw, Or.inl rfl⟩
    · obtain ⟨hgx, hsimx, hnsx, m, hmx, hor⟩ := ih hrest x hxr
      refine ⟨hgx, hsimx, hnsx, m, hmx, Or.inr ?_⟩
      rcases hor with hmc | hmr
      · simp [hmc]
      · simp only [List.map_cons, List.mem_cons]
        exact Or.inr hmr

theorem chainLinked_transport {db db' : DB} :
    ∀ {r : Nat} {l : List ReleaseStep},
      (∀ x ∈ l, getStep db' x.id = getStep db x.id) →
      chainLinked db r l → chainLinked db' r l := by
  intro r l
  induction l generalizing r with
  | nil => intro _ _; trivial
  | cons c rest ih =>
    intro hk h
    obtain ⟨hg, hsim, hw, hns, hrest⟩ := h
    refine ⟨?_, hsim, hw, hns, ih (fun x hx => hk x (List.mem_cons_of_mem c hx)) hrest⟩
    rw [hk c (List.mem_cons_self c rest)]
    exact hg

/-- Chain propagation inside one cascade: a whole chain of `not_started`
`simultaneous` steps hanging off the triggered step is started within the single
`triggerStep` call, provided the fuel covers the chain length and ids are unique. -/
theorem triggerStep_chain :
    ∀ (fuel : Nat) (db : DB) (s : ReleaseStep) (now : Nat) (chain : List ReleaseStep),
      uniqueIds db → chainLinked db s.id chain →
      (s.id :: chain.map (fun c => c.id)).Nodup →
      chain.length + 1 ≤ fuel →
      ∀ c ∈ chain,
        statusOf (triggerStep fuel db s now) c.id = some StepStatus.started := by
  intro fuel
  induction fuel with
  | zero => intro db s now chain _ _ _ hle c _; omega
  | succ f ih =>
    intro db s now chain hu hch hnd hle
    cases chain with
    | nil => intro c hc; cases hc
    | cons c rest =>
      rw [List.length_cons] at hle
      rw [List.map_cons, List.nodup_cons] at hnd
      obtain ⟨hsnotin, hnd2⟩ := hnd
      have hscid : ¬ s.id = c.id :=
        fun he => hsnotin (by rw [he]; exact List.mem_cons_self _ _)
      have hsrest : s.id ∉ rest.map (fun c => c.id) :=
        fun hm => hsnotin (List.mem_cons_of_mem _ hm)
      obtain ⟨hgc, hsimc, hwc, hnsc, hrest⟩ := hch
      have hkeepW : ∀ x ∈ c :: rest,
          getStep (trigWrite db s now) x.id = getStep db x.id := by
        intro x hx
        rcases List.mem_cons.mp hx with hxc | hxr
        · subst hxc
          exact find_writeStep_ne db.steps s.id now x.id hscid
        · refine find_writeStep_ne db.steps s.id now x.id (fun he => hsrest ?_)
          rw [he]
          exact List.mem_map_of_mem _ hxr
      have huW : uniqueIds (trigWrite db s now) :=
        uniqueIds_evolve (writeStep_static db.steps s.id now) hu
      have hgcW : getStep (trigWrite db s now) c.id = some c := by
        rw [hkeepW c (List.mem_cons_self c rest)]; exact hgc
      have hchW : chainLinked (trigWrite db s now) c.id rest :=
        chainLinked_transport (fun x hx => hkeepW x (List.mem_cons_of_mem c hx)) hrest
      have hcmemW : c ∈ simultaneousSnapshot (trigWrite db s now) s.id := by
        rw [mem_simultaneousSnapshot]
        exact ⟨(getStep_some _ c.id hgcW).1, hnsc, hsimc, hwc⟩
      have hgsW : ∀ a, getStep (trigWrite db s now) s.id = some a →
          a.status = StepStatus.started := by
        intro a hga
        have hga2 : (writeStepStarted db.steps s.id now).find?
            (fun t => decide (t.id = s.id)) = some a := hga
        rw [find_writeStep_self db.steps s.id now] at hga2
        obtain ⟨b, _, hb⟩ := Option.map_eq_some'.mp hga2
        rw [← hb]
      have hclW : cascadeClosed (trigWrite db s now)
          (fun y => y = s.id ∨ y = c.id ∨ y ∈ rest.map (fun x => x.id)) := by
        intro y hy a hga
        rcases hy with hys | hyc | hyr
        · subst hys
          exact Or.inl (hgsW a hga)
        · subst hyc
          rw [hga] at hgcW
          have hac : a = c := Option.some.inj hgcW
          subst hac
          refine Or.inr ⟨hsimc, hnsc, fun m hm => ?_⟩
          rw [hwc] at hm
          exact Or.inl (Option.some.inj hm).symm
        · obtain ⟨x, hxr, hxid⟩ := List.mem_map.mp hyr
          have hxid2 : x.id = y := hxid
          subst hxid2
          obtain ⟨hgx, hsimx, hnsx, m, hmx, hor⟩ := chainLinked_elem hchW x hxr
          rw [hga] at hgx
          have hax : a = x := Option.some.inj hgx
          subst hax
          refine Or.inr ⟨hsimx, hnsx, fun m2 hm2 => ?_⟩
          rw [hmx] at hm2
          have hmm : m = m2 := Option.some.inj hm2
          subst hmm
          rcases hor with hmc | hmr
          · exact Or.inr (Or.inl hmc)
          · exact Or.inr (Or.inr hmr)
      have hnSW : ∀ e ∈ simultaneousSnapshot (trigWrite db s now) s.id,
          ¬ e.id = c.id →
          ¬ (e.id = s.id ∨ e.id = c.id ∨ e.id ∈ rest.map (fun x => x.id)) := by
        intro e he hec hSe
        rw [mem_simultaneousSnapshot] at he
        obtain ⟨heM, heNS, heSim, heW⟩ := he
        have hge : getStep (trigWrite db s now) e.id = some e := getStep_of_mem huW heM
        rcases hSe with hes | hec2 | her
        · rw [hes] at hge
          have hst := hgsW e hge
          rw [heNS] at hst
          cases hst
        · exact hec hec2
        · obtain ⟨x, hxr, hxid⟩ := List.mem_map.mp her
          have hxid2 : x.id = e.id := hxid
          obtain ⟨hgx, _, _, m, hmx, hor⟩ := chainLinked_elem hchW x hxr
          rw [← hxid2] at hge
          rw [hge] at hgx
          have hex : e = x := Option.some.inj hgx
          rw [hex] at heW
          rw [hmx] at heW
          have hms : m = s.id := Option.some.inj heW
          rcases hor with hmc | hmr
          · rw [hms] at hmc; exact hscid hmc
          · rw [hms] at hmr; exact hsrest hmr
      have hgoodW : ∀ e ∈ simultaneousSnapshot (trigWrite db s now) s.id,
          (getStep (trigWrite db s now) e.id).isSome ∧
            goodTarget (trigWrite db s now) e.id := by
        intro e he
        rw [mem_simultaneousSnapshot] at he
        constructor
        · rw [getStep_of_mem huW he.1]; rfl
        · exact goodTarget_of_ns huW he.1 (Or.inl he.2.1)
      have hQ : ∀ (l : List ReleaseStep) (db1 : DB),
          uniqueIds db1 →
          (∀ e ∈ l, (getStep db1 e.id).isSome ∧ goodTarget db1 e.id) →
          c ∈ l →
          chainLinked db1 c.id rest →
          cascadeClosed db1 (fun y => y = s.id ∨ y = c.id ∨ y ∈ rest.map (fun x => x.id)) →
          (∀ e ∈ l, ¬ e.id = c.id →
            ¬ (e.id = s.id ∨ e.id = c.id ∨ e.id ∈ rest.map (fun x => x.id))) →
          ∀ x ∈ c :: rest,
            statusOf (l.foldl (fun d t => triggerStep f d t now) db1) x.id =
              some StepStatus.started := by
        intro l
        induction l with
        | nil => intro db1 _ _ hc _ _ _ x hx; cases hc
        | cons e l2 ihl =>
          intro db1 hu1 hgood1 hcm hch1 hcl1 hnS1 x hx
          rw [List.foldl_cons]
          by_cases hec : e.id = c.id
          · have hch1e : chainLinked db1 e.id rest := by rw [hec]; exact hch1
            have hnd1 : (e.id :: rest.map (fun c => c.id)).Nodup := by
              rw [hec]; exact hnd2
            have hrs : ∀ z ∈ rest,
                statusOf (triggerStep f db1 e now) z.id = some StepStatus.started :=
              ih db1 e now rest hu1 hch1e hnd1 (by omega)
            have hcs : statusOf (triggerStep f db1 e now) e.id = some StepStatus.started :=
              triggerStep_starts f db1 e now hu1 (by omega)
                (hgood1 e (List.mem_cons_self e l2)).1
            have hev1 : stepsEvolve db1 (triggerStep f db1 e now) :=
              triggerStep_evolve f db1 e now hu1 (hgood1 e (List.mem_cons_self e l2)).2
            have hu2 : uniqueIds (triggerStep f db1 e now) :=
              uniqueIds_evolve (triggerStep_staticEvolve f db1 e now) hu1
            have hev2 : stepsEvolve (triggerStep f db1 e now)
                (l2.foldl (fun d t => triggerStep f d t now) (triggerStep f db1 e now)) :=
              cascadeFold_evolve f l2 (triggerStep f db1 e now) now hu2
                (fun e2 he2 => goodTarget_evolve hev1
                  (hgood1 e2 (List.mem_cons_of_mem e he2)).2)
            rcases List.mem_cons.mp hx with hxc | hxr
            · subst hxc
              rw [← hec]
              exact statusOf_frozen hev2 hcs (by decide)
            · exact statusOf_frozen hev2 (hrs x hxr) (by decide)
          · have hkeepS : ∀ y, (y = s.id ∨ y = c.id ∨ y ∈ rest.map (fun x => x.id)) →
                getStep (triggerStep f db1 e now) y = getStep db1 y :=
              triggerStep_keeps_set f db1 e now _ hu1
                (hnS1 e (List.mem_cons_self e l2) hec) hcl1
            have hev1 : stepsEvolve db1 (triggerStep f db1 e now) :=
              triggerStep_evolve f db1 e now hu1 (hgood1 e (List.mem_cons_self e l2)).2
            have hu2 : uniqueIds (triggerStep f db1 e now) :=
              uniqueIds_evolve (triggerStep_staticEvolve f db1 e now) hu1
            have hcm2 : c ∈ l2 := by
              rcases List.mem_cons.mp hcm with hce | h2
              · exact absurd (by rw [hce]) hec
              · exact h2
            have hch2 : chainLinked (triggerStep f db1 e now) c.id rest :=
              chainLinked_transport
                (fun z hz => hkeepS z.id (Or.inr (Or.inr (List.mem_map_of_mem _ hz)))) hch1
            have hcl2 : cascadeClosed (triggerStep f db1 e now)
                (fun y => y = s.id ∨ y = c.id ∨ y ∈ rest.map (fun x => x.id)) :=
              cascadeClosed_transport hkeepS hcl1
            exact ihl (triggerStep f db1 e now) hu2
              (fun e2 he2 => ⟨isSome_evolve hev1 (hgood1 e2 (List.mem_cons_of_mem e he2)).1,
                goodTarget_evolve hev1 (hgood1 e2 (List.mem_cons_of_mem e he2)).2⟩)
              hcm2 hch2 hcl2
              (fun e2 he2 => hnS1 e2 (List.mem_cons_of_mem e he2)) x hx
      intro c2 hc2
      rw [triggerStep_succ]
      exact hQ (simultaneousSnapshot (trigWrite db s now) s.id) (trigWrite db s now)
        huW hgoodW hcmemW hchW hclW hnSW c2 hc2

/-- C3 (amended): the simultaneous-step cascade runs for scheduler-driven triggers —
after any `triggerStep` call (the poller paths and every nested cascade call run
through it), every `not_started` `simultaneous` step pointing at the triggered id is
`started` within the same evaluation pass, and whole chains of `not_started`
simultaneous steps hanging off the triggered step propagate within the one call —
while the manual-trigger route performs no re-scan at all: it leaves every step
other than the triggered one untouched, and simultaneous dependents wait for the
next poll tick. -/
theorem C3_amended_cascade_scheduler_only (fuel now : Nat) (db : DB) (s : ReleaseStep)
    (hu : uniqueIds db) (hf : 2 ≤ fuel) :
    (∀ c ∈ db.steps, c.schedulingType = SchedulingType.simultaneous →
      c.simultaneousWithStepId = some s.id → c.status = StepStatus.not_started →
      statusOf (triggerStep fuel db s now) c.id = some StepStatus.started) ∧
    (∀ chain, chainLinked db s.id chain →
      (s.id :: chain.map (fun c => c.id)).Nodup →
      chain.length + 1 ≤ fuel →
      ∀ c ∈ chain,
        statusOf (triggerStep fuel db s now) c.id = some StepStatus.started) ∧
    (∀ stepId userId x, ¬ x = stepId →
      getStep (manualTriggerStep db stepId userId now).1 x = getStep db x) :=
  ⟨fun c hc hsim hw hns => triggerStep_cascades fuel db s now c hu hf hc hsim hw hns,
   fun chain hch hnd hle => triggerStep_chain fuel db s now chain hu hch hnd hle,
   fun stepId userId x hx => manualTrigger_frame db stepId userId now x hx⟩

/-- Witness for C3's amended theorem on the concrete chain database: the scheduler
trigger of step 1 cascades into step 2 and on into step 3 within the one call, and
the manual route leaves step 0 alone. -/
theorem C3_amended_cascade_scheduler_only_witness :
    uniqueIds exDbChain2 ∧ exC ∈ exDbChain2.steps ∧
    exC.simultaneousWithStepId = some exB.id ∧
    chainLinked exDbChain2 exB.id [exC, exD] ∧
    statusOf (triggerStep 3 exDbChain2 exB 7) exC.id = some StepStatus.started ∧
    statusOf (triggerStep 3 exDbChain2 exB 7) exD.id = some StepStatus.started ∧
    getStep (manualTriggerStep exDbChain2 1 9 7).1 0 = getStep exDbChain2 0 :=
  ⟨by decide, by decide, by decide, by decide,
   (C3_amended_cascade_scheduler_only 3 7 exDbChain2 exB (by decide) (by decide)).1
     exC (by decide) (by decide) (by decide) (by decide),
   (C3_amended_cascade_scheduler_only 3 7 exDbChain2 exB (by decide) (by decide)).2.1
     [exC, exD] (by decide) (by decide) (by decide) exD (by decide),
   (C3_amended_cascade_scheduler_only 3 7 exDbChain2 exB (by decide) (by decide)).2.2
     1 9 0 (by decide)⟩

/-- C6 (amended): the plan-status derivation — `completed` if all steps completed,
else `active` if any step started/in-progress/completed, else `planning`, with no
write for a zero-step plan — runs after step status changes made through the HTTP
routes (the step-update route and the manual-trigger route), but scheduler-driven
triggers do not recompute the plan status: a poll tick never changes any plan's
status and performs no plan write. -/
theorem C6_amended_plan_derivation (db : DB) (pid stepId userId now fuel : Nat)
    (newStatus : StepStatus) :
    (∀ p, getReleasePlan db pid = some p →
      ¬ (getStepsByReleasePlan db pid).isEmpty →
      planStatusOf (updateReleasePlanStatus db pid) pid =
        some (specDerivedPlanStatus (getStepsByReleasePlan db pid))) ∧
    (∀ step p, getStep db stepId = some step →
      step.status = StepStatus.not_started →
      getReleasePlan db step.releasePlanId = some p →
      planStatusOf (manualTriggerStep db stepId userId now).1 step.releasePlanId =
        some (specDerivedPlanStatus (getStepsByReleasePlan
          (manualTriggerStep db stepId userId now).1 step.releasePlanId))) ∧
    (∀ current p, getStep db stepId = some current →
      ¬ newStatus = current.status →
      getReleasePlan db current.releasePlanId = some p →
      planStatusOf (patchStepStatus db stepId newStatus userId now).1
          current.releasePlanId =
        some (specDerivedPlanStatus (getStepsByReleasePlan
          (patchStepStatus db stepId newStatus userId now).1 current.releasePlanId))) ∧
    (∀ q, planStatusOf (schedulerTick fuel db now) q = planStatusOf db q) ∧
    (schedulerTick fuel db now).planWrites = db.planWrites := by
  refine ⟨?_, ?_, ?_, ?_, (schedulerTick_plansKept fuel db now).2.1⟩
  · intro p hp hne
    exact updateReleasePlanStatus_derives hp hne
  · intro step p hget hns hp
    rw [manualTrigger_success_eq hget hns]
    refine derive_then_notify (p := p) ?_ ?_
    · exact hp
    · exact not_isEmpty_of_mem (mem_getStepsByReleasePlan.mpr
        ⟨writeStep_mem_plan hget now, rfl⟩)
  · intro current p hget hnee hp
    rw [patch_success_eq hget hnee]
    refine derive_then_notify (p := p) ?_ ?_
    · show (patchTimestampBackfill _ _ _ _ _).plans.find?
        (fun q => decide (q.id = current.releasePlanId)) = some p
      rw [patchTimestampBackfill_plans]
      exact hp
    · exact patch_plan_nonempty hget
  · intro q
    unfold planStatusOf getReleasePlan
    rw [(schedulerTick_plansKept fuel db now).1]

/-! Model of `storage.updateStep` at the JavaScript object level, for the
field-cleaning behaviour: a patch is a list of column/value pairs, a row is a
total assignment of values to column names. -/

/-- JavaScript value as far as `updateStep` distinguishes them: `undefined`, `null`,
strings (the empty string is special), numbers and timestamps. -/
inductive JSValue
  | undef
  | null
  | str (s : String)
  | num (n : Int)
  | time (t : Nat)
  deriving DecidableEq, Repr

/-- The `reduce` in `storage.updateStep`: keep exactly the entries whose value is
neither `undefined` nor the empty string. -/
def cleanStep (patch : List (String × JSValue)) : List (String × JSValue) :=
  patch.filter (fun kv => decide (¬ kv.2 = JSValue.undef ∧ ¬ kv.2 = JSValue.str ""))

/-- Spreading an entry list onto a row, left to right (later entries win), as
`{ ...cleanStep }` does. -/
def applyEntries (row : String → JSValue) : List (String × JSValue) → String → JSValue
  | [], k => row k
  | kv :: rest, k =>
    applyEntries (fun q => if q = kv.1 then kv.2 else row q) rest k

/-- `storage.updateStep`: `.set({ ...cleanStep, updatedAt: new Date() })` — the
cleaned entries overwrite their columns and `updatedAt` is always stamped. -/
def updateStepRow (row : String → JSValue) (patch : List (String × JSValue))
    (now : Nat) : String → JSValue :=
  fun k => if k = "updatedAt" then JSValue.time now
    else applyEntries row (cleanStep patch) k

theorem applyEntries_cases (es : List (String × JSValue)) :
    ∀ (row : String → JSValue) (k : String),
      applyEntries row es k = row k ∨
      ∃ v, (k, v) ∈ es ∧ applyEntries row es k = v := by
  induction es with
  | nil => intro row k; left; rfl
  | cons kv rest ih =>
    intro row k
    rcases ih (fun q => if q = kv.1 then kv.2 else row q) k with h | ⟨v, hv, he⟩
    · by_cases hk : k = kv.1
      · right
        refine ⟨kv.2, ?_, ?_⟩
        · rw [show (k, kv.2) = kv from by rw [hk], List.mem_cons]
          exact Or.inl rfl
        · show applyEntries _ rest k = kv.2
          rw [h]
          simp [hk]
      · left
        show applyEntries _ rest k = row k
        rw [h]
        simp [hk]
    · right
      exact ⟨v, List.mem_cons.mpr (Or.inr hv), he⟩

theorem mem_cleanStep {patch : List (String × JSValue)} {k : String} {v : JSValue} :
    (k, v) ∈ cleanStep patch ↔
      (k, v) ∈ patch ∧ ¬ v = JSValue.undef ∧ ¬ v = JSValue.str "" := by
  unfold cleanStep
  simp [List.mem_filter]

/-- C9: `updateStep` drops patch fields whose value is `undefined` or the empty
string, so (1) a column all of whose supplied values are `undefined`/empty keeps its
prior value, (2) no column can ever be set to the empty string, and (3) every column
not named in the cleaned patch — `updatedAt` excepted — keeps its prior value. -/
theorem C9_updateStep_cleaning (row : String → JSValue)
    (patch : List (String × JSValue)) (now : Nat) :
    (∀ k, ¬ k = "updatedAt" →
      (∀ v, (k, v) ∈ patch → v = JSValue.undef ∨ v = JSValue.str "") →
      updateStepRow row patch now k = row k) ∧
    (∀ k, ¬ row k = JSValue.str "" →
      ¬ updateStepRow row patch now k = JSValue.str "") ∧
    (∀ k, ¬ k = "updatedAt" → (∀ v, ¬ (k, v) ∈ cleanStep patch) →
      updateStepRow row patch now k = row k) := by
  refine ⟨?_, ?_, ?_⟩
  · intro k hk hall
    unfold updateStepRow
    rw [if_neg hk]
    rcases applyEntries_cases (cleanStep patch) row k with h | ⟨v, hv, he⟩
    · exact h
    · rw [mem_cleanStep] at hv
      rcases hall v hv.1 with hu | hs
      · exact absurd hu hv.2.1
      · exact absurd hs hv.2.2
  · intro k hk
    unfold updateStepRow
    by_cases hup : k = "updatedAt"
    · rw [if_pos hup]
      intro hx
      cases hx
    · rw [if_neg hup]
      rcases applyEntries_cases (cleanStep patch) row k with h | ⟨v, hv, he⟩
      · rw [h]; exact hk
      · rw [he]
        rw [mem_cleanStep] at hv
        exact hv.2.2
  · intro k hk hnone
    unfold updateStepRow
    rw [if_neg hk]
    rcases applyEntries_cases (cleanStep patch) row k with h | ⟨v, hv, _⟩
    · exact h
    · exact absurd hv (hnone v)

/-- Witness for C9 on a concrete row and patch: the empty-string update to `name`
and the `undefined` update to `description` are dropped; nothing becomes the empty
string. -/
theorem C9_updateStep_cleaning_witness :
    (∀ v, ("name", v) ∈
        [("name", JSValue.str ""), ("description", JSValue.undef),
         ("notes", JSValue.str "done")] →
      v = JSValue.undef ∨ v = JSValue.str "") ∧
    updateStepRow (fun k => if k = "name" then JSValue.str "deploy" else JSValue.null)
      [("name", JSValue.str ""), ("description", JSValue.undef),
       ("notes", JSValue.str "done")] 5 "name" =
      (fun k => if k = "name" then JSValue.str "deploy" else JSValue.null) "name" := by
  have hall : ∀ v, ("name", v) ∈
      [("name", JSValue.str ""), ("description", JSValue.undef),
       ("notes", JSValue.str "done")] →
      v = JSValue.undef ∨ v = JSValue.str "" := by
    intro v hv
    rcases List.mem_cons.mp hv with h | hv2
    · exact Or.inr (congrArg Prod.snd h)
    · rcases List.mem_cons.mp hv2 with h | hv3
      · exact Or.inl (congrArg Prod.snd h)
      · rcases List.mem_cons.mp hv3 with h | hv4
        · have hfst : "name" = "notes" := congrArg Prod.fst h
          simp at hfst
        · cases hv4
  exact ⟨hall, (C9_updateStep_cleaning
    (fun k => if k = "name" then JSValue.str "deploy" else JSValue.null)
    [("name", JSValue.str ""), ("description", JSValue.undef),
     ("notes", JSValue.str "done")] 5).1 "name" (by decide) hall⟩

/-! Facts about `pickLatest` and `getActiveReleasePlan`. -/

theorem pickStep_none (p : ReleasePlan) : pickStep none p = some p := rfl

theorem pickStep_some (q p : ReleasePlan) :
    pickStep (some q) p = if q.createdAt < p.createdAt then some p else some q := rfl

theorem pickLatest_aux :
    ∀ (l : List ReleasePlan) (acc : Option ReleasePlan) (r : ReleasePlan),
      l.foldl pickStep acc = some r →
      (r ∈ l ∨ acc = some r) ∧ (∀ q ∈ l, q.createdAt ≤ r.createdAt) ∧
      (∀ q, acc = some q → q.createdAt ≤ r.createdAt) := by
  intro l
  induction l with
  | nil =>
    intro acc r h
    refine ⟨Or.inr h, ?_, ?_⟩
    · intro q hq; cases hq
    · intro q hq
      rw [hq] at h
      rw [Option.some.inj h]
  | cons p l ih =>
    intro acc r h
    rw [List.foldl_cons] at h
    obtain ⟨hmem, hmax, hacc⟩ := ih _ r h
    have hstep : ∀ a, pickStep acc p = some a →
        (a = p ∨ acc = some a) ∧ p.createdAt ≤ a.createdAt ∧
        (∀ q, acc = some q → q.createdAt ≤ a.createdAt) := by
      intro a ha
      cases acc with
      | none =>
        rw [pickStep_none] at ha
        refine ⟨Or.inl (Option.some.inj ha).symm, ?_, ?_⟩
        · rw [← Option.some.inj ha]
        · intro q hq; cases hq
      | some q0 =>
        rw [pickStep_some] at ha
        by_cases hlt : q0.createdAt < p.createdAt
        · rw [if_pos hlt] at ha
          refine ⟨Or.inl (Option.some.inj ha).symm, ?_, ?_⟩
          · rw [← Option.some.inj ha]
          · intro q hq
            rw [← Option.some.inj ha, Option.some.inj hq.symm]
            exact le_of_lt hlt
        · rw [if_neg hlt] at ha
          refine ⟨Or.inr (by rw [ha]), ?_, ?_⟩
          · rw [← Option.some.inj ha]
            omega
          · intro q hq
            rw [← Option.some.inj ha, Option.some.inj hq.symm]
    have hsome : ∀ h0 : pickStep acc p = none, False := by
      intro h0
      cases acc with
      | none => rw [pickStep_none] at h0; cases h0
      | some q0 =>
        rw [pickStep_some] at h0
        by_cases hlt : q0.createdAt < p.createdAt <;> simp [hlt] at h0
    refine ⟨?_, ?_, ?_⟩
    · rcases hmem with hrl | hracc
      · exact Or.inl (List.mem_cons.mpr (Or.inr hrl))
      · rcases (hstep r hracc).1 with hrp | hra
        · exact Or.inl (List.mem_cons.mpr (Or.inl hrp))
        · exact Or.inr hra
    · intro q hq
      rcases List.mem_cons.mp hq with rfl | hql
      · cases hs : pickStep acc q with
        | none => exact absurd hs (fun h0 => hsome h0)
        | some a => exact le_trans (hstep a hs).2.1 (hacc a hs)
      · exact hmax q hql
    · intro q hq
      cases hs : pickStep acc p with
      | none => exact absurd hs (fun h0 => hsome h0)
      | some a => exact le_trans ((hstep a hs).2.2 q hq) (hacc a hs)

theorem pickLatest_isSome :
    ∀ (l : List ReleasePlan) (q : ReleasePlan),
      ¬ l.foldl pickStep (some q) = none := by
  intro l
  induction l with
  | nil => intro q h; cases h
  | cons p l ih =>
    intro q h
    rw [List.foldl_cons, pickStep_some] at h
    by_cases hlt : q.createdAt < p.createdAt
    · rw [if_pos hlt] at h
      exact ih p h
    · rw [if_neg hlt] at h
      exact ih q h

theorem pickLatest_spec {l : List ReleasePlan} {r : ReleasePlan}
    (h : pickLatest l = some r) :
    r ∈ l ∧ ∀ q ∈ l, q.createdAt ≤ r.createdAt := by
  obtain ⟨hmem, hmax, _⟩ := pickLatest_aux l none r h
  rcases hmem with hm | hm
  · exact ⟨hm, hmax⟩
  · cases hm

theorem pickLatest_ne_none {l : List ReleasePlan} (h : ¬ l = []) :
    ¬ pickLatest l = none := by
  cases l with
  | nil => exact absurd rfl h
  | cons p l =>
    intro hn
    rw [pickLatest, List.foldl_cons, pickStep_none] at hn
    exact pickLatest_isSome l p hn

/-- C10: `getActiveReleasePlan` returns the most recently created `active` plan when
one exists, else the most recently created `planning` plan, else nothing; a
`completed` or `cancelled` plan is never returned. -/
theorem C10_active_release_plan_selection (plans : List ReleasePlan) :
    ((∃ p ∈ plans, p.status = PlanStatus.active) →
      ∃ p, getActiveReleasePlan plans = some p ∧ p.status = PlanStatus.active ∧
        p ∈ plans ∧
        ∀ q ∈ plans, q.status = PlanStatus.active → q.createdAt ≤ p.createdAt) ∧
    ((∀ p ∈ plans, ¬ p.status = PlanStatus.active) →
      (∃ p ∈ plans, p.status = PlanStatus.planning) →
      ∃ p, getActiveReleasePlan plans = some p ∧ p.status = PlanStatus.planning ∧
        p ∈ plans ∧
        ∀ q ∈ plans, q.status = PlanStatus.planning → q.createdAt ≤ p.createdAt) ∧
    ((∀ p ∈ plans, ¬ p.status = PlanStatus.active ∧ ¬ p.status = PlanStatus.planning) →
      getActiveReleasePlan plans = none) ∧
    (∀ p, getActiveReleasePlan plans = some p →
      p.status = PlanStatus.active ∨ p.status = PlanStatus.planning) := by
  have hmemA : ∀ p, p ∈ plans.filter (fun q => decide (q.status = PlanStatus.active)) ↔
      p ∈ plans ∧ p.status = PlanStatus.active := by
    intro p; simp [List.mem_filter]
  have hmemP : ∀ p, p ∈ plans.filter (fun q => decide (q.status = PlanStatus.planning)) ↔
      p ∈ plans ∧ p.status = PlanStatus.planning := by
    intro p; simp [List.mem_filter]
  refine ⟨?_, ?_, ?_, ?_⟩
  · intro ⟨a, ha, hact⟩
    have hne : ¬ plans.filter (fun q => decide (q.status = PlanStatus.active)) = [] := by
      intro h0
      have := (hmemA a).mpr ⟨ha, hact⟩
      rw [h0] at this
      cases this
    cases hpick : pickLatest (plans.filter (fun q => decide (q.status = PlanStatus.active))) with
    | none => exact absurd hpick (pickLatest_ne_none hne)
    | some p =>
      obtain ⟨hmem, hmax⟩ := pickLatest_spec hpick
      rw [hmemA] at hmem
      refine ⟨p, ?_, hmem.2, hmem.1, ?_⟩
      · unfold getActiveReleasePlan
        rw [hpick]
      · intro q hq hqa
        exact hmax q ((hmemA q).mpr ⟨hq, hqa⟩)
  · intro hnoact ⟨a, ha, hplan⟩
    have hA : plans.filter (fun q => decide (q.status = PlanStatus.active)) = [] := by
      rw [List.filter_eq_nil_iff]
      intro q hq
      simp [hnoact q hq]
    have hne : ¬ plans.filter (fun q => decide (q.status = PlanStatus.planning)) = [] := by
      intro h0
      have := (hmemP a).mpr ⟨ha, hplan⟩
      rw [h0] at this
      cases this
    cases hpick : pickLatest (plans.filter (fun q => decide (q.status = PlanStatus.planning))) with
    | none => exact absurd hpick (pickLatest_ne_none hne)
    | some p =>
      obtain ⟨hmem, hmax⟩ := pickLatest_spec hpick
      rw [hmemP] at hmem
      refine ⟨p, ?_, hmem.2, hmem.1, ?_⟩
      · unfold getActiveReleasePlan
        rw [hA]
        show pickLatest _ = some p
        exact hpick
      · intro q hq hqa
        exact hmax q ((hmemP q).mpr ⟨hq, hqa⟩)
  · intro hnone
    have hA : plans.filter (fun q => decide (q.status = PlanStatus.active)) = [] := by
      rw [List.filter_eq_nil_iff]
      intro q hq
      simp [(hnone q hq).1]
    have hP : plans.filter (fun q => decide (q.status = PlanStatus.planning)) = [] := by
      rw [List.filter_eq_nil_iff]
      intro q hq
      simp [(hnone q hq).2]
    unfold getActiveReleasePlan
    rw [hA, hP]
    rfl
  · intro p hp
    unfold getActiveReleasePlan at hp
    cases hpick : pickLatest (plans.filter (fun q => decide (q.status = PlanStatus.active))) with
    | some a =>
      rw [hpick] at hp
      have := (pickLatest_spec hpick).1
      rw [hmemA] at this
      rw [← Option.some.inj hp]
      exact Or.inl this.2
    | none =>
      rw [hpick] at hp
      have := (pickLatest_spec hp).1
      rw [hmemP] at this
      exact Or.inr this.2

/-- Witness for C10: with two active plans and one completed plan, the most recently
created active plan is returned. -/
theorem C10_active_release_plan_selection_witness :
    (∃ p ∈ [ReleasePlan.mk 1 PlanStatus.active 5, ReleasePlan.mk 2 PlanStatus.active 9,
            ReleasePlan.mk 3 PlanStatus.completed 20],
        p.status = PlanStatus.active) ∧
    ∃ p, getActiveReleasePlan
        [ReleasePlan.mk 1 PlanStatus.active 5, ReleasePlan.mk 2 PlanStatus.active 9,
         ReleasePlan.mk 3 PlanStatus.completed 20] = some p ∧
      p.status = PlanStatus.active ∧
      p ∈ [ReleasePlan.mk 1 PlanStatus.active 5, ReleasePlan.mk 2 PlanStatus.active 9,
           ReleasePlan.mk 3 PlanStatus.completed 20] ∧
      ∀ q ∈ [ReleasePlan.mk 1 PlanStatus.active 5, ReleasePlan.mk 2 PlanStatus.active 9,
             ReleasePlan.mk 3 PlanStatus.completed 20],
        q.status = PlanStatus.active → q.createdAt ≤ p.createdAt :=
  ⟨by decide,
   (C10_active_release_plan_selection
     [ReleasePlan.mk 1 PlanStatus.active 5, ReleasePlan.mk 2 PlanStatus.active 9,
      ReleasePlan.mk 3 PlanStatus.completed 20]).1 (by decide)⟩

/-- Witness for C6's amended theorem: manually triggering the manual step of the
`planning` plan leaves the plan carrying exactly the derived status of its steps
(`active`, one step started and one not started). -/
theorem C6_amended_plan_derivation_witness :
    getStep exDbManualPair 1 = some exManual ∧
    exManual.status = StepStatus.not_started ∧
    getReleasePlan exDbManualPair 0 =
      some { id := 0, status := PlanStatus.planning, createdAt := 0 } ∧
    planStatusOf (manualTriggerStep exDbManualPair 1 9 50).1 exManual.releasePlanId =
      some (specDerivedPlanStatus (getStepsByReleasePlan
        (manualTriggerStep exDbManualPair 1 9 50).1 exManual.releasePlanId)) :=
  ⟨by decide, by decide, by decide,
   (C6_amended_plan_derivation exDbManualPair 0 1 9 50 0 StepStatus.started).2.1
     exManual { id := 0, status := PlanStatus.planning, createdAt := 0 }
     (by decide) (by decide) (by decide)⟩
